import Mathlib

/-!
Verification of the ddown-parser segmentation engine.

This file gives a shallow embedding, in Lean 4, of the segmentation engine of
the `ddown-parser` repository, and proves / refutes the frozen claims about it.

Strings are modelled as `List Char` (`Str`).  Python string operations
(`strip`, `split`, `replace`, regular-expression search with the specific
patterns used by the source) are modelled by executable Lean functions whose
semantics follows CPython's documented behaviour for exactly the inputs the
source can produce.  Recursions that are not structural use an explicit fuel
argument (always instantiated with a sufficient bound) so that every
definition reduces in the kernel.

The repository contains two parser variants:
  * `src/ddown_parser/parser.py` (class `DdownParser`) — the legacy variant;
  * `src/ddown_parser/parsers/` (`BaseParser`, `ElementParser`, and the
    refactored `DdownParser`) — the multi-pass variant the specification
    follows.
Both are embedded where a claim cites them: namespaces `BaseParser`,
`ElementParser` and `DdownParser` model the refactored variant, namespace
`MainParser` models the cited parts of `parser.py`.
-/

namespace Ddown

/-- Characters are handled as plain `Char` lists. -/
abbrev Str := List Char

/-- The backtick character (written via its code point). -/
def tick : Char := '\x60'

/-- The opening brace character. -/
def obrace : Char := '\x7b'

/-- The closing brace character. -/
def cbrace : Char := '\x7d'

/-- Python `str.isspace` / `\s` character class (ASCII part, which is all the
source's inputs use): space, tab, newline, carriage return, vertical tab,
form feed. -/
def isPySpace (c : Char) : Bool :=
  c = ' ' || c = '\t' || c = '\n' || c = '\r' || c = '\x0b' || c = '\x0c'

/-- Python `str.strip()` with no arguments: remove leading whitespace. -/
def pyStripLeft (s : Str) : Str := s.dropWhile isPySpace

/-- Python `str.strip()` with no arguments: remove trailing whitespace. -/
def pyStripRight (s : Str) : Str := (s.reverse.dropWhile isPySpace).reverse

/-- Python `str.strip()` with no arguments. -/
def pyStrip (s : Str) : Str := pyStripRight (pyStripLeft s)

/-- Python `str.strip(ch)` for a single-character argument. -/
def pyStripChar (ch : Char) (s : Str) : Str :=
  ((s.dropWhile (· = ch)).reverse.dropWhile (· = ch)).reverse

/-- Python `str.split(sep)` for a one-character separator: splits on every
occurrence, keeping empty parts (`"".split(c) = [""]`). -/
def splitOnChar (sep : Char) : Str → List Str
  | [] => [[]]
  | c :: rest =>
    let r := splitOnChar sep rest
    if c = sep then [] :: r
    else
      match r with
      | [] => [[c]]
      | h :: t => (c :: h) :: t

/-- Python `str.split(sep, 1)`: split at the first occurrence only.
Returns `none` when the separator does not occur (in the source this is the
`ValueError` branch of `key, value = item.split(':', 1)`). -/
def splitOnce (sep : Char) : Str → Option (Str × Str)
  | [] => none
  | c :: rest =>
    if c = sep then some ([], rest)
    else (splitOnce sep rest).map (fun p => (c :: p.1, p.2))

/-- Python `str.split()` with no arguments: split on whitespace runs,
discarding empty tokens. -/
def pySplitWs : Str → List Str
  | [] => []
  | c :: rest =>
    if isPySpace c then pySplitWs rest
    else
      match pySplitWs rest with
      | [] => [[c]]
      | h :: t =>
        match rest with
        | [] => [[c]]
        | d :: _ => if isPySpace d then [c] :: h :: t else (c :: h) :: t

/-- Python `str.replace(pat, rep)`: replace every non-overlapping occurrence,
left to right.  (`pat` is never empty at the call sites.) -/
def replaceAll (pat rep : Str) : Nat → Str → Str
  | 0, s => s
  | _ + 1, [] => []
  | fuel + 1, c :: rest =>
    if pat ≠ [] ∧ pat.isPrefixOf (c :: rest) then
      rep ++ replaceAll pat rep fuel ((c :: rest).drop pat.length)
    else
      c :: replaceAll pat rep fuel rest

/-- Whether `pat` occurs as a contiguous substring. -/
def hasSub (pat : Str) : Str → Bool
  | [] => pat.isEmpty
  | c :: rest => pat.isPrefixOf (c :: rest) || hasSub pat rest

/-- Parse a decimal digit string to a natural number (`int(...)` on the
digits captured by `(\d+)`). -/
def digitsToNat (s : Str) : Nat :=
  s.foldl (fun acc c => acc * 10 + (c.toNat - '0'.toNat)) 0

/-- Ordered dictionary update, Python semantics: an existing key keeps its
position and gets the new value; a new key is appended. -/
def dictUpdate (d : List (Str × Str)) (k v : Str) : List (Str × Str) :=
  if d.any (fun p => p.1 = k) then d.map (fun p => if p.1 = k then (k, v) else p)
  else d ++ [(k, v)]

/-- Python `dict.update`: fold `dictUpdate` over the second dictionary. -/
def dictUpdateAll (d : List (Str × Str)) (d2 : List (Str × Str)) : List (Str × Str) :=
  d2.foldl (fun acc p => dictUpdate acc p.1 p.2) d

/-- Parse a `;`-separated list of `key: value` declarations into an ordered
dictionary, as every style-parsing loop of the source does: each item is
stripped, empty items are skipped, items without `:` are skipped, and
`key`/`value` are the stripped parts around the first `:`. -/
def parseStyleDecls (grp : Str) : List (Str × Str) :=
  (splitOnChar ';' grp).foldl
    (fun acc item =>
      let item := pyStrip item
      if item = [] then acc
      else
        match splitOnce ':' item with
        | none => acc
        | some (k, v) => dictUpdate acc (pyStrip k) (pyStrip v))
    []

/-! ## Data model

Elements are the dictionaries produced by the `to_dict` methods in
`src/ddown_parser/elements/`.  Attribute dictionaries may or may not contain
the keys `style` / `classes` / `id`, which is modelled with `Option` fields
(`none` = key absent).  Attribute dictionaries that the source always leaves
empty (paragraphs, code blocks, blockquotes, tables, list containers, and
the `list_attributes` field of list items) are omitted from the model. -/

/-- The attribute dictionary of an element. -/
structure Attrs where
  style : Option (List (Str × Str))
  classes : Option (List Str)
  id : Option Str
deriving DecidableEq, Repr

/-- The empty attribute dictionary. -/
def Attrs.empty : Attrs := ⟨none, none, none⟩

/-- `list_type` strings of the source. -/
inductive ListKind where
  | unordered
  | ordered
deriving DecidableEq, Repr

/-- A `ListItemElement` (its `to_dict` form). -/
structure ListItem where
  content : Str
  list_type : ListKind
  list_index : Option Nat
  first_in_list : Bool
  last_in_list : Bool
  attrs : Attrs
deriving DecidableEq, Repr

/-- A parsed element (the `to_dict` dictionaries of the element classes). -/
inductive Element where
  | heading (content : Str) (level : Nat) (attrs : Attrs)
  | paragraph (content : Str)
  | code_block (content : Str) (language : Str)
  | blockquote (content : Str)
  | table (rows : List (List Str))
  | list (kind : ListKind) (items : List ListItem)
deriving DecidableEq, Repr

/-- An element tagged with its start line (`{'position': ..., 'element': ...}`). -/
abbrev PosElem := Nat × Element

/-! ## BaseParser (`src/ddown_parser/parsers/base_parser.py`)

The attribute grammar: the regex patterns
`inline = \{@\s*([^}]+)\s*\}` and `class_id = \{([#.][^}]+)\}`, their
`search` (first match), and `extract_inline_attributes` (lines 101-170). -/

namespace BaseParser

open Ddown

/-- Match of the `inline` style pattern `\{@\s*([^}]+)\s*\}` anchored at the
start of `s`: returns `(whole match, group 1)`.  The greedy `[^}]+` takes
everything up to the first closing brace; the leading `\s*` takes the
whitespace prefix of that run, except that when the run is all whitespace it
backs off one character so that `[^}]+` keeps one. -/
def inlineStyleMatchAt (s : Str) : Option (Str × Str) :=
  match s with
  | c :: a :: rest =>
    if c = obrace ∧ a = '@' then
      let run := rest.takeWhile (fun d => d ≠ cbrace)
      if run.length ≥ 1 ∧ (rest.drop run.length).head? = some cbrace then
        let w := (run.takeWhile isPySpace).length
        let grp := if w = run.length then run.drop (run.length - 1) else run.drop w
        some (c :: a :: run ++ [cbrace], grp)
      else none
    else none
  | _ => none

/-- `re.search` of the `inline` style pattern: first match position wins. -/
def searchInlineStyle : Str → Option (Str × Str)
  | [] => none
  | c :: rest =>
    match inlineStyleMatchAt (c :: rest) with
    | some m => some m
    | none => searchInlineStyle rest

/-- Match of the `class_id` pattern `\{([#.][^}]+)\}` anchored at the start of
`s`: a brace, a `#` or `.` selector character, at least one further
non-brace character (greedy up to the first closing brace), and the closing
brace.  Returns `(whole match, group 1)`. -/
def classIdMatchAt (s : Str) : Option (Str × Str) :=
  match s with
  | c :: a :: rest =>
    if c = obrace ∧ (a = '#' ∨ a = '.') then
      let run := rest.takeWhile (fun d => d ≠ cbrace)
      if run.length ≥ 1 ∧ (rest.drop run.length).head? = some cbrace then
        some (c :: a :: run ++ [cbrace], a :: run)
      else none
    else none
  | _ => none

/-- `re.search` of the `class_id` pattern. -/
def searchClassId : Str → Option (Str × Str)
  | [] => none
  | c :: rest =>
    match classIdMatchAt (c :: rest) with
    | some m => some m
    | none => searchClassId rest

/-- One `class_id` group parsed into class and id tokens
(`extract_inline_attributes`, lines 153-158): whitespace-separated selectors;
`.x` appends a class, `#x` overwrites the id, anything else is ignored. -/
def parseSelectors (grp : Str) : List Str × Option Str :=
  (pySplitWs grp).foldl
    (fun acc sel =>
      match sel with
      | '.' :: name => (acc.1 ++ [name], acc.2)
      | '#' :: name => (acc.1, some name)
      | _ => acc)
    ([], none)

/-- The style loop of `extract_inline_attributes` (lines 113-141): repeatedly
search for an inline style block, merge its non-empty declaration dictionary
into the accumulated `style` entry, and delete every occurrence of the
matched text.  `fuel` is instantiated with the text length plus one, which
bounds the number of iterations since each found match is removed. -/
def styleLoop : Nat → Str → Option (List (Str × Str)) → Str × Option (List (Str × Str))
  | 0, t, acc => (t, acc)
  | fuel + 1, t, acc =>
    match searchInlineStyle t with
    | none => (t, acc)
    | some (whole, grp) =>
      let d := parseStyleDecls (pyStrip grp)
      let acc' := if d = [] then acc else some (dictUpdateAll (acc.getD []) d)
      styleLoop fuel (replaceAll whole [] t.length t) acc'

/-- The class/id loop of `extract_inline_attributes` (lines 143-168):
repeatedly search for a class/id block, accumulate its classes, let the last
id win, and delete every occurrence of the matched text. -/
def classLoop :
    Nat → Str → Option (List Str) → Option Str → Str × Option (List Str) × Option Str
  | 0, t, cls, idv => (t, cls, idv)
  | fuel + 1, t, cls, idv =>
    match searchClassId t with
    | none => (t, cls, idv)
    | some (whole, grp) =>
      let (classes, element_id) := parseSelectors (pyStrip grp)
      let cls' := if classes = [] then cls else some (cls.getD [] ++ classes)
      let idv' := match element_id with
        | none => idv
        | some i => some i
      classLoop fuel (replaceAll whole [] t.length t) cls' idv'

/-- `BaseParser.extract_inline_attributes` (lines 101-170): extract every
inline style block and every class/id block, returning the cleaned, stripped
text and the merged attribute dictionary. -/
def extract_inline_attributes (text : Str) : Str × Attrs :=
  let (t1, sty) := styleLoop (text.length + 1) text none
  let (t2, cls, idv) := classLoop (t1.length + 1) t1 none none
  (pyStrip t2, ⟨sty, cls, idv⟩)

end BaseParser

/-! ## Claim tracking helpers

`processed_lines` is the per-document boolean list.  Slice assignment
`processed_lines[a:b+1] = [True] * ...` is modelled by `setClaims` (setting
indices `a..b` inclusive).  When the Python slice end exceeds the list length
the list is extended, but the extra entries are beyond `len(lines)` and are
never read by any pass, so clamping (which `List.set` does) is observationally
equivalent. -/

/-- Set claim flags for indices `a..b` (inclusive) to `true`. -/
def setClaims (claims : List Bool) (a b : Nat) : List Bool :=
  (List.range' a (b + 1 - a)).foldl (fun c k => c.set k true) claims

/-! ## ElementParser (`src/ddown_parser/parsers/element_parser.py`) -/

namespace ElementParser

open Ddown

/-- Whether a line matches the underline part `(m{3,})\s*$` of a heading
pattern: a maximal run of at least three marker characters followed only by
whitespace. -/
def isUnderlineLine (m : Char) (l : Str) : Bool :=
  let run := l.takeWhile (· = m)
  run.length ≥ 3 && (l.drop run.length).all isPySpace

/-- A line consisting only of whitespace (possibly empty). -/
def isWsLine (l : Str) : Bool := l.all isPySpace

/-- Scanner state for `finditer` of a heading pattern (see `scanHL`). -/
inductive ScanMode where
  | norm
  | skipOne
  | skipWs
deriving DecidableEq, Repr

/-- Line-level model of `pattern.finditer(content)` for one heading pattern
`^(.+?)\n(m{3,})\s*$` with `re.MULTILINE`: returns the indices of the matched
text lines, scanning left to right without overlap.  A match covers the text
line, the underline line, and — because the trailing greedy `\s*` may cross
newlines up to the last position where `$` holds — every immediately
following whitespace-only line; scanning resumes after them (`skipOne` skips
the underline line, `skipWs` the whitespace-only run). -/
def scanHL (m : Char) : ScanMode → Nat → List Str → List Nat
  | _, _, [] => []
  | .skipOne, i, _ :: rest => scanHL m .skipWs (i + 1) rest
  | .skipWs, i, a :: rest =>
    if isWsLine a then scanHL m .skipWs (i + 1) rest
    else
      match rest with
      | [] => []
      | b :: _ =>
        if !a.isEmpty && isUnderlineLine m b then i :: scanHL m .skipOne (i + 1) rest
        else scanHL m .norm (i + 1) rest
  | .norm, i, a :: rest =>
    match rest with
    | [] => []
    | b :: _ =>
      if !a.isEmpty && isUnderlineLine m b then i :: scanHL m .skipOne (i + 1) rest
      else scanHL m .norm (i + 1) rest

/-- The style-after-underline lookup of `parse_headings` (lines 45-66): read
`lines[underline_line + 1]` (note: `underline_line` is the source's
`start_line + 2`, one line past the actual underline), accept it only when it
is a `{@ ... }` line, parse its declarations, and claim the line if the
parsed dictionary is non-empty. -/
def headingStyleAfter (lines : List Str) (claims : List Bool) (underline_line : Nat) :
    Option (List (Str × Str)) × List Bool :=
  if underline_line + 1 < lines.length then
    let next_line := pyStrip (lines.getD (underline_line + 1) [])
    if (obrace :: '@' :: []).isPrefixOf next_line && (next_line.getLast? == some cbrace) then
      let d := parseStyleDecls (pyStrip ((next_line.drop 2).dropLast))
      if d = [] then (none, claims)
      else (some d, claims.set (underline_line + 1) true)
    else (none, claims)
  else (none, claims)

/-- The attribute merge of `parse_headings` (lines 72-82): start from the
style-after-underline attributes, then merge the inline attributes extracted
from the heading text; `style` dictionaries merge by key, `classes` and `id`
are simply set. -/
def mergeHeadingAttrs (styleAfter : Option (List (Str × Str))) (inline : Attrs) : Attrs :=
  { style :=
      match styleAfter, inline.style with
      | some a, some i => some (dictUpdateAll a i)
      | some a, none => some a
      | none, s => s
    classes := inline.classes
    id := inline.id }

/-- Process one heading match of level `level` whose text line is `s`
(`parse_headings` loop body): look for a style line at `s + 3`, claim lines
`s .. s + 2` (the text line, the underline line, and — through the off-by-one
`underline_line = start_line + 2` — the line after the underline), extract
inline attributes from the text line, and emit the heading. -/
def processHeading (lines : List Str) (level : Nat)
    (st : List PosElem × List Bool) (s : Nat) : List PosElem × List Bool :=
  let underline_line := s + 2
  let (styleAfter, claims) := headingStyleAfter lines st.2 underline_line
  let claims := setClaims claims s underline_line
  let heading_text := pyStrip (lines.getD s [])
  let (cleaned, inline) := BaseParser.extract_inline_attributes heading_text
  (st.1 ++ [(s, Element.heading cleaned level (mergeHeadingAttrs styleAfter inline))], claims)

/-- The five heading levels and their underline markers, in the iteration
order of `self.heading_patterns`. -/
def heading_levels : List (Nat × Char) := [(1, '='), (2, '-'), (3, '~'), (4, '^'), (5, '*')]

/-- `ElementParser.parse_headings` (lines 23-99): for each level pattern, find
every match in the raw content (ignoring existing claims) and process it. -/
def parse_headings (lines : List Str) (claims : List Bool) : List PosElem × List Bool :=
  heading_levels.foldl
    (fun st lv => (scanHL lv.2 .norm 0 lines).foldl (processHeading lines lv.1) st)
    ([], claims)

/-- Whether the text starts with three backticks. -/
def isTriplePrefix (s : Str) : Bool := ([tick, tick, tick]).isPrefixOf s

/-- Split at the first occurrence of three backticks:
`(text before, text after the backticks)`. -/
def findTriple : Str → Option (Str × Str)
  | [] => none
  | c :: rest =>
    if isTriplePrefix (c :: rest) then some ([], (c :: rest).drop 3)
    else (findTriple rest).map (fun p => (c :: p.1, p.2))

/-- Number of newline characters. -/
def countNl (s : Str) : Nat := s.countP (· = '\n')

/-- One match of `code_block_pattern` with its computed line span. -/
structure CodeMatch where
  start_line : Nat
  end_line : Nat
  language : Str
  body : Str
deriving DecidableEq, Repr

/-- Character-level model of
`re.finditer(r'```([^\n]*)\n([\s\S]*?)```', content)`: at each position, an
opening triple backtick followed by a language tag up to a newline matches
when a closing triple backtick occurs later (the lazy body is everything up
to the first one); otherwise scanning advances one character.  `nl` counts
newlines before the current position; `start_line`/`end_line` are the
newline counts before the match start and end, as the source computes them.
`fuel` is the remaining text length plus one. -/
def codeScan : Nat → Nat → Str → List CodeMatch
  | 0, _, _ => []
  | _ + 1, _, [] => []
  | fuel + 1, nl, c :: rest =>
    (if isTriplePrefix (c :: rest) then
      match splitOnce '\n' ((c :: rest).drop 3) with
      | none => none
      | some (lang, afterNl) =>
        match findTriple afterNl with
        | none => none
        | some (body, rest') =>
          let span := 1 + countNl body
          some (CodeMatch.mk nl (nl + span) lang body, nl + span, rest')
    else none).elim
      (codeScan fuel (nl + if c = '\n' then 1 else 0) rest)
      (fun r => r.1 :: codeScan fuel r.2.1 r.2.2)

/-- `ElementParser.parse_code_blocks` (lines 157-189): emit a `CodeBlock` for
every fence match and claim its whole line span, ignoring existing claims. -/
def parse_code_blocks (content : Str) (claims : List Bool) : List PosElem × List Bool :=
  (codeScan (content.length + 1) 0 content).foldl
    (fun st m =>
      (st.1 ++ [(m.start_line, Element.code_block m.body (pyStrip m.language))],
       setClaims st.2 m.start_line m.end_line))
    ([], claims)

end ElementParser

/-! ### Inline links and images -/

/-- Scan for the first `)` with no interposed newline
(the lazy `(.*?)\)` part of the link pattern): `(group, rest after)`. -/
def parenScan : Str → Option (Str × Str)
  | [] => none
  | c :: rest =>
    if c = ')' then some ([], rest)
    else if c = '\n' then none
    else (parenScan rest).map (fun p => (c :: p.1, p.2))

/-- Scan the text after `[` for the lazy `(.*?)\]\((.*?)\)` part of the link
pattern `\[(.*?)\]\((.*?)\)`: find the shortest group 1 (no newline) whose
closing `](` is followed by a `)`-terminated group 2 (no newline); on an
inner failure the `]` is absorbed into group 1 and scanning continues.
Returns `(group 1, group 2, rest after the match)`. -/
def linkTail : Str → Option (Str × Str × Str)
  | [] => none
  | c :: rest =>
    if c = '\n' then none
    else
      let deeper :=
        match rest with
        | '(' :: rest2 =>
          if c = ']' then
            match parenScan rest2 with
            | some (g2, after) => some ([], g2, after)
            | none => (linkTail rest).map (fun t => (c :: t.1, t.2.1, t.2.2))
          else (linkTail rest).map (fun t => (c :: t.1, t.2.1, t.2.2))
        | _ => (linkTail rest).map (fun t => (c :: t.1, t.2.1, t.2.2))
      deeper

/-- The link pattern `\[(.*?)\]\((.*?)\)` anchored at the start of the text:
`(whole match, group 1, group 2)`. -/
def matchLinkAt : Str → Option (Str × Str × Str)
  | '[' :: rest =>
    (linkTail rest).map (fun t =>
      ('[' :: t.1 ++ ']' :: '(' :: t.2.1 ++ [')'], t.1, t.2.1))
  | _ => none

/-- The image pattern `!\[(.*?)\]\((.*?)\)` anchored at the start. -/
def matchImageAt : Str → Option (Str × Str × Str)
  | '!' :: rest => (matchLinkAt rest).map (fun t => ('!' :: t.1, t.2.1, t.2.2))
  | _ => none

/-- One regex match with its start offset and capture groups. -/
structure RxMatch where
  start : Nat
  whole : Str
  g1 : Str
  g2 : Str
deriving DecidableEq, Repr

/-- `re.finditer` for an anchored matcher: scan left to right, non-overlapping,
advancing one character past failed positions.  `fuel` is text length + 1. -/
def finditerBy (matchAt : Str → Option (Str × Str × Str)) :
    Nat → Nat → Str → List RxMatch
  | 0, _, _ => []
  | _ + 1, _, [] => []
  | fuel + 1, pos, c :: rest =>
    match matchAt (c :: rest) with
    | some (whole, g1, g2) =>
      ⟨pos, whole, g1, g2⟩ ::
        finditerBy matchAt fuel (pos + whole.length) ((c :: rest).drop whole.length)
    | none => finditerBy matchAt fuel (pos + 1) rest

/-- `LinkElement(content, href).to_html()` with no attributes
(`elements/media.py`). -/
def linkHtml (content href : Str) : Str :=
  "<a href=\"".toList ++ href ++ "\">".toList ++ content ++ "</a>".toList

/-- `ImageElement(alt, src).to_html()` with no attributes
(`elements/media.py`). -/
def imageHtml (alt src : Str) : Str :=
  "<img src=\"".toList ++ src ++ "\" alt=\"".toList ++ alt ++ "\">".toList

namespace ElementParser

/-- The kind of an inline element found by `process_inline_elements`. -/
inductive InlineKind where
  | link
  | image
deriving DecidableEq, Repr

/-- One entry of the list returned by `process_inline_elements`. -/
structure InlineElem where
  kind : InlineKind
  start : Nat
  original : Str
  g1 : Str
  g2 : Str
deriving DecidableEq, Repr

/-- Stable insertion sort by a numeric key — extensionally the unique stable
sort, hence a faithful model of Python's `list.sort(key=...)`. -/
def insertByKey {α : Type} (key : α → Nat) (x : α) : List α → List α
  | [] => [x]
  | y :: ys => if key y ≤ key x then y :: insertByKey key x ys else x :: y :: ys

/-- Stable sort by a numeric key (see `insertByKey`). -/
def sortByKey {α : Type} (key : α → Nat) (l : List α) : List α :=
  l.foldl (fun acc x => insertByKey key x acc) []

/-- `ElementParser.process_inline_elements` (lines 101-155): collect every
link match that is not directly preceded by `!`, and every image match, and
sort the records by start offset (stably). -/
def process_inline_elements (text : Str) : List InlineElem :=
  let links := (finditerBy matchLinkAt (text.length + 1) 0 text).filter
    (fun m => !(decide (1 ≤ m.start) && (text.getD (m.start - 1) ' ' == '!')))
  let images := finditerBy matchImageAt (text.length + 1) 0 text
  sortByKey (fun e => e.start)
    (links.map (fun m => InlineElem.mk .link m.start m.whole m.g1 m.g2) ++
     images.map (fun m => InlineElem.mk .image m.start m.whole m.g1 m.g2))

/-- The caller-side replacement loop that follows every call of
`process_inline_elements` in the source (repeated verbatim in the list and
paragraph passes): replace each recorded original, in sorted order, by the
`to_html` form of the corresponding element. -/
def processInlineText (t : Str) : Str :=
  (process_inline_elements t).foldl
    (fun txt e =>
      match e.kind with
      | .link => replaceAll e.original (linkHtml e.g1 e.g2) txt.length txt
      | .image => replaceAll e.original (imageHtml e.g1 e.g2) txt.length txt)
    t

/-! ### Line-scanning passes

Each pass walks the lines together with their claim flags (zipped as
`List (Str × Bool)`), skipping claimed lines, and returns its elements and
the updated claim flags. -/

/-- Close a pending blockquote: join its lines with newlines
(`'\n'.join(blockquote_lines)`). -/
def bqFlush (st : Option (Nat × List Str)) : List PosElem :=
  match st with
  | none => []
  | some (s, acc) => [(s, Element.blockquote (List.intercalate ['\n'] acc))]

/-- The loop body of `parse_blockquotes` (lines 191-253): a claimed line ends
a pending blockquote; a `>`-prefixed line opens or continues one (claimed);
a non-empty line continues one (claimed); a blank line ends one without
being claimed. -/
def bqGo : Nat → Option (Nat × List Str) → List (Str × Bool) → List PosElem × List Bool
  | _, st, [] => (bqFlush st, [])
  | i, st, (line, claimed) :: rest =>
    if claimed then
      let r := bqGo (i + 1) none rest
      (bqFlush st ++ r.1, true :: r.2)
    else if (pyStrip line).head? == some '>' then
      let txt := pyStrip ((pyStrip line).drop 1)
      let st' := match st with
        | none => some (i, [txt])
        | some (s, acc) => some (s, acc ++ [txt])
      let r := bqGo (i + 1) st' rest
      (r.1, true :: r.2)
    else if !(pyStrip line).isEmpty && st.isSome then
      let r := bqGo (i + 1) (st.map (fun p => (p.1, p.2 ++ [pyStrip line]))) rest
      (r.1, true :: r.2)
    else if st.isSome then
      let r := bqGo (i + 1) none rest
      (bqFlush st ++ r.1, false :: r.2)
    else
      let r := bqGo (i + 1) none rest
      (r.1, false :: r.2)

/-- `ElementParser.parse_blockquotes`. -/
def parse_blockquotes (lines : List Str) (claims : List Bool) : List PosElem × List Bool :=
  bqGo 0 none (lines.zip claims)

/-- `table_separator_pattern = ^\|[-:\s|]+\|\s*$` applied (with `re.match`)
to an already-stripped line: an outer pair of pipes around at least one
character, all of which are `-`, `:`, `|` or whitespace. -/
def isSepRow (l : Str) : Bool :=
  l.length ≥ 3 && l.head? == some '|' && l.getLast? == some '|' &&
    ((l.drop 1).dropLast.all (fun c => c = '-' || c = ':' || c = '|' || isPySpace c))

/-- Close a pending table when a claimed line or the end of input is reached:
the source guards this with `if in_table and table_rows`. -/
def tblFlushGuard (st : Option (Nat × List (List Str))) : List PosElem :=
  match st with
  | none => []
  | some (s, rows) => if rows = [] then [] else [(s, Element.table rows)]

/-- Close a pending table at a non-pipe line: the source emits it
unconditionally (`elif in_table:`), even when no rows were collected. -/
def tblFlushUncond (st : Option (Nat × List (List Str))) : List PosElem :=
  match st with
  | none => []
  | some (s, rows) => [(s, Element.table rows)]

/-- The loop body of `parse_tables` (lines 255-316): claimed lines are
skipped (ending a pending table); a stripped line with outer pipes starts or
continues a table — a separator row is claimed and discarded, any other row
is split on `|` (outer pipes stripped via `strip('|')`) into stripped cells
and claimed; any other line ends a pending table without being claimed. -/
def tblGo : Nat → Option (Nat × List (List Str)) → List (Str × Bool) →
    List PosElem × List Bool
  | _, st, [] => (tblFlushGuard st, [])
  | i, st, (line, claimed) :: rest =>
    if claimed then
      let r := tblGo (i + 1) none rest
      (tblFlushGuard st ++ r.1, true :: r.2)
    else
      let l := pyStrip line
      if l.head? == some '|' && l.getLast? == some '|' then
        let st0 := match st with
          | none => some (i, ([] : List (List Str)))
          | some p => some p
        if isSepRow l then
          let r := tblGo (i + 1) st0 rest
          (r.1, true :: r.2)
        else
          let cells := (splitOnChar '|' (pyStripChar '|' l)).map pyStrip
          let r := tblGo (i + 1) (st0.map (fun p => (p.1, p.2 ++ [cells]))) rest
          (r.1, true :: r.2)
      else if st.isSome then
        let r := tblGo (i + 1) none rest
        (tblFlushUncond st ++ r.1, false :: r.2)
      else
        let r := tblGo (i + 1) none rest
        (r.1, false :: r.2)

/-- `ElementParser.parse_tables`. -/
def parse_tables (lines : List Str) (claims : List Bool) : List PosElem × List Bool :=
  tblGo 0 none (lines.zip claims)

/-- Build one unordered list item from a stripped `=>` line
(`parse_unordered_lists` lines 356-383): strip the marker, extract inline
attributes, process inline links and images.  The item's
`first_in_list`/`last_in_list` flags are left at their constructor defaults
(`False`), as the source does. -/
def mkULItem (l : Str) : ListItem :=
  let (cleaned, attrs) := BaseParser.extract_inline_attributes (pyStrip (l.drop 2))
  ⟨processInlineText cleaned, .unordered, none, false, false, attrs⟩

/-- Close a pending list under the `if in_list and list_items` guard. -/
def listFlushGuard (kind : ListKind) (st : Option (Nat × List ListItem)) : List PosElem :=
  match st with
  | none => []
  | some (s, items) => if items = [] then [] else [(s, Element.list kind items)]

/-- Close a pending list at a non-matching line (`elif in_list:`,
unconditional; `in_list` implies the item list is non-empty). -/
def listFlushUncond (kind : ListKind) (st : Option (Nat × List ListItem)) : List PosElem :=
  match st with
  | none => []
  | some (s, items) => [(s, Element.list kind items)]

/-- The loop body of `parse_unordered_lists` (lines 318-413): claimed lines
end a pending list; a stripped `=>` line starts or continues one (claimed);
a blank line inside a list is claimed as a continuation; any other line ends
the list without being claimed. -/
def ulGo : Nat → Option (Nat × List ListItem) → List (Str × Bool) →
    List PosElem × List Bool
  | _, st, [] => (listFlushGuard .unordered st, [])
  | i, st, (line, claimed) :: rest =>
    if claimed then
      let r := ulGo (i + 1) none rest
      (listFlushGuard .unordered st ++ r.1, true :: r.2)
    else
      let l := pyStrip line
      if ("=>".toList).isPrefixOf l then
        let st' := match st with
          | none => some (i, [mkULItem l])
          | some (s, items) => some (s, items ++ [mkULItem l])
        let r := ulGo (i + 1) st' rest
        (r.1, true :: r.2)
      else if st.isSome && l.isEmpty then
        let r := ulGo (i + 1) st rest
        (r.1, true :: r.2)
      else if st.isSome then
        let r := ulGo (i + 1) none rest
        (listFlushUncond .unordered st ++ r.1, false :: r.2)
      else
        let r := ulGo (i + 1) none rest
        (r.1, false :: r.2)

/-- `ElementParser.parse_unordered_lists`. -/
def parse_unordered_lists (lines : List Str) (claims : List Bool) :
    List PosElem × List Bool :=
  ulGo 0 none (lines.zip claims)

/-- `re.match(r'^(\d+)\.\s+(.+)$', line)` on an already-stripped line:
digits, a dot, at least one whitespace character, then the (non-empty) item
text.  (On a stripped line the text cannot be empty after the whitespace
run, so no backtracking case arises.) -/
def matchOrdered (l : Str) : Option (Nat × Str) :=
  let digits := l.takeWhile (fun c => c.isDigit)
  if digits.isEmpty then none
  else
    match l.drop digits.length with
    | '.' :: rest =>
      let ws := rest.takeWhile isPySpace
      if ws.isEmpty then none
      else
        let txt := rest.drop ws.length
        if txt.isEmpty then none else some (digitsToNat digits, txt)
    | _ => none

/-- Build one ordered list item (`parse_ordered_lists` lines 446-486). -/
def mkOLItem (idx : Nat) (txt : Str) : ListItem :=
  let (cleaned, attrs) := BaseParser.extract_inline_attributes (pyStrip txt)
  ⟨processInlineText cleaned, .ordered, some idx, false, false, attrs⟩

/-- The loop body of `parse_ordered_lists` (lines 415-513), identical in
structure to `ulGo` but keyed on the ordered-item pattern. -/
def olGo : Nat → Option (Nat × List ListItem) → List (Str × Bool) →
    List PosElem × List Bool
  | _, st, [] => (listFlushGuard .ordered st, [])
  | i, st, (line, claimed) :: rest =>
    if claimed then
      let r := olGo (i + 1) none rest
      (listFlushGuard .ordered st ++ r.1, true :: r.2)
    else
      let l := pyStrip line
      match matchOrdered l with
      | some (idx, txt) =>
        let st' := match st with
          | none => some (i, [mkOLItem idx txt])
          | some (s, items) => some (s, items ++ [mkOLItem idx txt])
        let r := olGo (i + 1) st' rest
        (r.1, true :: r.2)
      | none =>
        if st.isSome && l.isEmpty then
          let r := olGo (i + 1) st rest
          (r.1, true :: r.2)
        else if st.isSome then
          let r := olGo (i + 1) none rest
          (listFlushUncond .ordered st ++ r.1, false :: r.2)
        else
          let r := olGo (i + 1) none rest
          (r.1, false :: r.2)

/-- `ElementParser.parse_ordered_lists`. -/
def parse_ordered_lists (lines : List Str) (claims : List Bool) :
    List PosElem × List Bool :=
  olGo 0 none (lines.zip claims)

/-- Close a pending paragraph: join its stripped lines with single spaces and
process inline links and images. -/
def paraFlush (st : Option (Nat × List Str)) : List PosElem :=
  match st with
  | none => []
  | some (s, acc) => [(s, Element.paragraph (processInlineText (List.intercalate [' '] acc)))]

/-- The loop body of `parse_paragraphs` (lines 515-628): claimed lines end a
pending paragraph; a non-blank line starts or continues one (claimed); a
blank line ends one and is itself claimed. -/
def paraGo : Nat → Option (Nat × List Str) → List (Str × Bool) → List PosElem × List Bool
  | _, st, [] => (paraFlush st, [])
  | i, st, (line, claimed) :: rest =>
    if claimed then
      let r := paraGo (i + 1) none rest
      (paraFlush st ++ r.1, true :: r.2)
    else
      let l := pyStrip line
      if !l.isEmpty then
        let st' := match st with
          | none => some (i, [l])
          | some (s, acc) => some (s, acc ++ [l])
        let r := paraGo (i + 1) st' rest
        (r.1, true :: r.2)
      else if st.isSome then
        let r := paraGo (i + 1) none rest
        (paraFlush st ++ r.1, true :: r.2)
      else
        let r := paraGo (i + 1) none rest
        (r.1, false :: r.2)

/-- `ElementParser.parse_paragraphs`. -/
def parse_paragraphs (lines : List Str) (claims : List Bool) : List PosElem × List Bool :=
  paraGo 0 none (lines.zip claims)

end ElementParser

/-! ## Document assembly (`src/ddown_parser/parsers/ddown_parser.py`) -/

/-- The `{@global-style}` opening marker. -/
def gsOpen : Str := ('\x7b' :: "@global-style\x7d".toList)

/-- The `{@endglobal-style}` closing marker. -/
def gsClose : Str := ('\x7b' :: "@endglobal-style\x7d".toList)

/-- Split at the first occurrence of `pat`: `(before, after the pattern)`. -/
def findMarker (pat : Str) : Str → Option (Str × Str)
  | [] => if pat.isEmpty then some ([], []) else none
  | c :: rest =>
    if pat.isPrefixOf (c :: rest) then some ([], (c :: rest).drop pat.length)
    else (findMarker pat rest).map (fun p => (c :: p.1, p.2))

namespace DdownParser

open Ddown

/-- `self.style_patterns['global'].sub('', content)`: delete every
(lazy, non-overlapping) `{@global-style}...{@endglobal-style}` region.
`fuel` is the content length plus one. -/
def globalStyleSub : Nat → Str → Str
  | 0, s => s
  | _ + 1, [] => []
  | fuel + 1, c :: rest =>
    if gsOpen.isPrefixOf (c :: rest) then
      match findMarker gsClose ((c :: rest).drop gsOpen.length) with
      | some (_, after) => globalStyleSub fuel after
      | none => c :: globalStyleSub fuel rest
    else c :: globalStyleSub fuel rest

/-- `DdownParser._extract_global_style`: group 1 of the first global-style
match, stripped; `None` when there is no match. -/
def extract_global_style (content : Str) : Option Str :=
  match findMarker gsOpen content with
  | none => none
  | some (_, after) =>
    match findMarker gsClose after with
    | none => none
    | some (body, _) => some (pyStrip body)

/-- `DdownParser._parse_elements` (refactored variant, lines 87-124), kept
together with each element's start position: strip global-style regions,
split into lines, initialise the claim flags, run the seven passes in order,
and stable-sort the collected records by position. -/
def parse_elements_positioned (content : Str) : List PosElem :=
  let content := globalStyleSub (content.length + 1) content
  let lines := splitOnChar '\n' content
  let claims := List.replicate lines.length false
  let r1 := ElementParser.parse_headings lines claims
  let r2 := ElementParser.parse_code_blocks content r1.2
  let r3 := ElementParser.parse_blockquotes lines r2.2
  let r4 := ElementParser.parse_tables lines r3.2
  let r5 := ElementParser.parse_unordered_lists lines r4.2
  let r6 := ElementParser.parse_ordered_lists lines r5.2
  let r7 := ElementParser.parse_paragraphs lines r6.2
  ElementParser.sortByKey (fun p => p.1)
    (r1.1 ++ r2.1 ++ r3.1 ++ r4.1 ++ r5.1 ++ r6.1 ++ r7.1)

/-- The element list of `_parse_elements`: the sorted records with the
positions dropped (`elements = [item['element'] for item in ...]`). -/
def parse_elements (content : Str) : List Element :=
  (parse_elements_positioned content).map (fun p => p.2)

end DdownParser

/-- The parsed document dictionary (`_parse_content` of either variant):
`{'global_style': ..., 'elements': ...}`. -/
structure Document where
  global_style : Option Str
  elements : List Element
deriving DecidableEq, Repr

namespace DdownParser

/-- `DdownParser._parse_content`. -/
def parse_content (content : Str) : Document :=
  ⟨extract_global_style content, parse_elements content⟩

end DdownParser

/-! ## The legacy `DdownParser` of `src/ddown_parser/parser.py`

Only the parts cited by claims are embedded: `_extract_inline_attributes`
(lines 239-287), `_process_inline_elements` (lines 289-312),
`_parse_unordered_lists` (lines 454-513), and `_convert_to_pdf`
(lines 816-834). -/

namespace MainParser

open Ddown

/-- `pattern.sub('', text)` for an anchored matcher: delete every
non-overlapping match, scanning left to right.  `fuel` is text length + 1. -/
def regexSubAll (matchAt : Str → Option (Str × Str)) : Nat → Str → Str
  | 0, s => s
  | _ + 1, [] => []
  | fuel + 1, c :: rest =>
    match matchAt (c :: rest) with
    | some (whole, _) => regexSubAll matchAt fuel ((c :: rest).drop whole.length)
    | none => c :: regexSubAll matchAt fuel rest

/-- `DdownParser._extract_inline_attributes` (parser.py, lines 239-287):
unlike the `BaseParser` version, only the FIRST style match and the FIRST
class/id match are parsed — but `sub('', text)` then removes every match
from the text.  The `style` key is set whenever a style block matched, even
when its declaration dictionary is empty. -/
def extract_inline_attributes (text : Str) : Str × Attrs :=
  let sty :=
    (BaseParser.searchInlineStyle text).map (fun m => parseStyleDecls m.2)
  let t1 :=
    match BaseParser.searchInlineStyle text with
    | none => text
    | some _ => regexSubAll BaseParser.inlineStyleMatchAt (text.length + 1) text
  let (cls, idv) :=
    match BaseParser.searchClassId t1 with
    | none => (none, none)
    | some (_, grp) =>
      let (classes, element_id) := BaseParser.parseSelectors grp
      ((if classes = [] then none else some classes), element_id)
  let t2 :=
    match BaseParser.searchClassId t1 with
    | none => t1
    | some _ => regexSubAll BaseParser.classIdMatchAt (t1.length + 1) t1
  (pyStrip t2, ⟨sty, cls, idv⟩)

/-- `DdownParser._process_inline_elements` (parser.py, lines 289-312): first
every link match found in the original text is replaced (via `str.replace`,
hence every occurrence) by its anchor form — note that this also consumes
the bracket part of every image occurrence, leaving a stray `!` — and then
every image match still present in the resulting text is replaced by its
image form. -/
def process_inline_elements (text : Str) : Str :=
  let linkMs := finditerBy matchLinkAt (text.length + 1) 0 text
  let t1 := linkMs.foldl
    (fun t m => replaceAll m.whole (linkHtml m.g1 m.g2) t.length t) text
  let imgMs := finditerBy matchImageAt (t1.length + 1) 0 t1
  imgMs.foldl (fun t m => replaceAll m.whole (imageHtml m.g1 m.g2) t.length t) t1

/-- Build one list item of `_parse_unordered_lists` (lines 477-492):
`first_in_list` is `len(list_items) == 0` at creation time, `last_in_list`
starts out `False`. -/
def mkItem (l : Str) (isFirst : Bool) : ListItem :=
  let e := extract_inline_attributes (pyStrip (l.drop 2))
  ⟨process_inline_elements e.1, .unordered, none, isFirst, false, e.2⟩

/-- The scanning loop of `_parse_unordered_lists` (lines 467-494): every
unclaimed line whose stripped form starts with `=>` becomes an item of ONE
list (nothing ever closes it); all other lines are simply skipped. -/
def ulGo : Nat → Option Nat → List ListItem → List (Str × Bool) →
    Option Nat × List ListItem × List Bool
  | _, start, items, [] => (start, items, [])
  | i, start, items, (line, claimed) :: rest =>
    if claimed then
      let r := ulGo (i + 1) start items rest
      (r.1, r.2.1, true :: r.2.2)
    else
      let l := pyStrip line
      if ("=>".toList).isPrefixOf l then
        let start' := match start with
          | none => some i
          | some s => some s
        let r := ulGo (i + 1) start' (items ++ [mkItem l items.isEmpty]) rest
        (r.1, r.2.1, true :: r.2.2)
      else
        let r := ulGo (i + 1) start items rest
        (r.1, r.2.1, false :: r.2.2)

/-- `list_items[-1].last_in_list = True`. -/
def setLastTrue : List ListItem → List ListItem
  | [] => []
  | [x] => [{ x with last_in_list := true }]
  | x :: y :: xs => x :: setLastTrue (y :: xs)

/-- `DdownParser._parse_unordered_lists` (parser.py, lines 454-513): collect
every unclaimed `=>` line in the document into a single list element
positioned at the first such line, mark the last item, and emit the element
if any item was found. -/
def parse_unordered_lists (lines : List Str) (claims : List Bool) :
    List PosElem × List Bool :=
  let r := ulGo 0 none [] (lines.zip claims)
  if r.2.1.isEmpty then ([], r.2.2)
  else ([(r.1.getD 0, Element.list .unordered (setLastTrue r.2.1))], r.2.2)

/-- `DdownParser._convert_to_pdf` (parser.py, lines 816-834): the source
converts the document to HTML with `_convert_to_html`, discards the result
(the WeasyPrint call is commented out), and returns the placeholder `b""`. -/
def convert_to_pdf (document : Document) : List Nat := []

end MainParser

/-! ## Auxiliary notions used by the theorem statements -/

/-- A list item with plain content and no attributes, as produced by the
refactored unordered-list pass for an item line with no inline syntax. -/
def plainItem (x : Str) : ListItem :=
  ⟨x, .unordered, none, false, false, Attrs.empty⟩

/-- A class/id block `{.x #y}`. -/
def classIdBlock (x y : Str) : Str :=
  obrace :: '.' :: (x ++ ' ' :: '#' :: (y ++ [cbrace]))

/-- The image syntax `![a](u)`. -/
def imageSyntax (a u : Str) : Str :=
  '!' :: '[' :: (a ++ ']' :: '(' :: (u ++ [')']))

/-- The concrete style-only line `\x7b@ color: red; \x7d`. -/
def styleRedLine : Str := "\x7b@ color: red; \x7d".toList

/-! ## Theorems -/

/-! ### Sortedness of the reconciled element list (claim C5) -/

theorem mem_insertByKey {α : Type} (key : α → Nat) (x : α) (l : List α) (a : α)
    (h : a ∈ ElementParser.insertByKey key x l) : a = x ∨ a ∈ l := by
  induction l with
  | nil => simpa [ElementParser.insertByKey] using h
  | cons y ys ih =>
    by_cases hc : key y ≤ key x
    · simp only [ElementParser.insertByKey, if_pos hc, List.mem_cons] at h
      rcases h with h | h
      · exact Or.inr (by simp [h])
      · rcases ih h with h | h
        · exact Or.inl h
        · exact Or.inr (List.mem_cons_of_mem _ h)
    · simp only [ElementParser.insertByKey, if_neg hc, List.mem_cons] at h
      rcases h with h | h
      · exact Or.inl h
      · exact Or.inr (by simpa using h)

theorem sorted_insertByKey {α : Type} (key : α → Nat) (x : α) (l : List α)
    (h : l.Pairwise (fun p q => key p ≤ key q)) :
    (ElementParser.insertByKey key x l).Pairwise (fun p q => key p ≤ key q) := by
  induction l with
  | nil => simp [ElementParser.insertByKey]
  | cons y ys ih =>
    rcases List.pairwise_cons.mp h with ⟨hy, hys⟩
    by_cases hc : key y ≤ key x
    · simp only [ElementParser.insertByKey, if_pos hc]
      refine List.pairwise_cons.mpr ⟨?_, ih hys⟩
      intro a ha
      rcases mem_insertByKey key x ys a ha with rfl | ha
      · exact hc
      · exact hy a ha
    · simp only [ElementParser.insertByKey, if_neg hc]
      refine List.pairwise_cons.mpr ⟨?_, h⟩
      intro a ha
      rcases List.mem_cons.mp ha with rfl | ha
      · omega
      · exact le_trans (by omega) (hy a ha)

theorem sorted_sortByKey {α : Type} (key : α → Nat) (l : List α) :
    (ElementParser.sortByKey key l).Pairwise (fun p q => key p ≤ key q) := by
  suffices h : ∀ acc : List α, acc.Pairwise (fun p q => key p ≤ key q) →
      (l.foldl (fun acc x => ElementParser.insertByKey key x acc) acc).Pairwise
        (fun p q => key p ≤ key q) by
    exact h [] (by simp)
  induction l with
  | nil => intro acc hacc; simpa using hacc
  | cons x xs ih =>
    intro acc hacc
    exact ih _ (sorted_insertByKey key x acc hacc)

/-- Claim C5 (amended): the reconciled element sequence is sorted by start
line in non-decreasing (not necessarily strictly increasing) order: the
reconciler is a stable sort by position, and ties are possible. -/
theorem reconciled_positions_sorted (content : Str) :
    (DdownParser.parse_elements_positioned content).Pairwise
      (fun p q => p.1 ≤ q.1) :=
  sorted_sortByKey (fun p : PosElem => p.1) _

/-- Claim C5 (counterexample): on the input consisting of the three lines
 ``` , === , ``` the heading pass matches the first two lines (the opening
fence is a valid heading text line, `===` its underline) and the code-block
pass matches the whole fence, so two elements both report start line 0 —
the element sequence is NOT strictly increasing and start lines are not
unique. -/
theorem duplicate_start_lines_possible :
    ((DdownParser.parse_elements_positioned
        "\x60\x60\x60\n===\n\x60\x60\x60".toList).map (fun p => p.1) = [0, 0]) ∧
    ¬ ((DdownParser.parse_elements_positioned
        "\x60\x60\x60\n===\n\x60\x60\x60".toList).map (fun p => p.1)).Pairwise
        (fun p q => p < q) := by
  constructor
  · decide
  · decide

/-! ### The PDF conversion path (claim C10) -/

/-- Claim C10: `_convert_to_pdf` returns the empty byte string for every
document — the parsed document's content is ignored (the HTML intermediate
is computed and discarded; the PDF backend call is commented out). -/
theorem convert_to_pdf_returns_empty (document : Document) :
    MainParser.convert_to_pdf document = [] := rfl

/-! ### Re-claiming across passes (claim C1) -/

/-- Claim C2 (counterexample): parsing
`Title {@ color: red; }` / `===` / `{.big #main}` yields a Heading whose
attributes contain only the style — `classes` and `id` are absent, because
the heading pass claims the `{.big #main}` line (its off-by-one claim range
covers the line after the underline) but only ever inspects the line two
past the underline, and only for a `{@ ... }` style block.  The claimed
output (`classes=["big"]`, `id="main"`) is therefore wrong. -/
theorem heading_attr_line_is_discarded :
    DdownParser.parse_elements
        "Title \x7b@ color: red; \x7d\n===\n\x7b.big #main\x7d".toList =
      [Element.heading "Title".toList 1
        ⟨some [("color".toList, "red".toList)], none, none⟩] := by
  decide

/-- Claim C2 (amended): the three-line input yields exactly one element: a
level-1 Heading with content `Title` and style `{color: red}`, with no
classes and no id; the `{.big #main}` line is claimed by the heading pass
and discarded, so it produces no further element. -/
theorem heading_with_style_and_class_line_parse :
    DdownParser.parse_elements_positioned
        "Title \x7b@ color: red; \x7d\n===\n\x7b.big #main\x7d".toList =
      [(0, Element.heading "Title".toList 1
        ⟨some [("color".toList, "red".toList)], none, none⟩)] := by
  decide

/-! ### The heading claim span (claim C3) -/

/-- Claim C3 (counterexample): in `Title` / `===` / `hello` the line `hello`
is not a style declaration, yet the heading pass claims it (claim range
`start..start+2` where `start+2` is one PAST the underline), so it is NOT
left for later passes: the parse yields only the heading and no Paragraph
for `hello`. -/
theorem line_after_underline_always_claimed :
    DdownParser.parse_elements_positioned "Title\n===\nhello".toList =
      [(0, Element.heading "Title".toList 1 Attrs.empty)] := by
  decide

/-! ### Generic facts about the embedded string operations -/

theorem dropWhile_eq_self_head_false {p : Char → Bool} {c : Char} {r : Str}
    (h : List.dropWhile p (c :: r) = c :: r) : p c = false := by
  by_contra hc
  have hpc : p c = true := by revert hc; cases p c <;> simp
  rw [List.dropWhile_cons, hpc] at h
  simp only [if_true] at h
  have hle := (List.dropWhile_sublist (l := r) p).length_le
  have hlen := congrArg List.length h
  simp at hlen
  omega

theorem pyStripLeft_cons {c : Char} (s : Str) (hc : isPySpace c = false) :
    pyStripLeft (c :: s) = c :: s := by
  simp [pyStripLeft, List.dropWhile_cons, hc]

theorem pyStripRight_append (s a : Str) (ha : a ≠ []) (hR : pyStripRight a = a) :
    pyStripRight (s ++ a) = s ++ a := by
  obtain ⟨c, r, hrev⟩ : ∃ c r, a.reverse = c :: r := by
    cases harev : a.reverse with
    | nil => exact absurd (by simpa using congrArg List.reverse harev) ha
    | cons c r => exact ⟨c, r, rfl⟩
  have hdrop : List.dropWhile isPySpace a.reverse = a.reverse := by
    have := congrArg List.reverse hR
    simpa [pyStripRight] using this
  have hc : isPySpace c = false := by
    apply dropWhile_eq_self_head_false (r := r)
    rw [← hrev]
    exact hdrop
  have ha2 : a = r.reverse ++ [c] := by
    have h2 := congrArg List.reverse hrev
    simpa using h2
  unfold pyStripRight
  rw [List.reverse_append, hrev, List.cons_append, List.dropWhile_cons, hc]
  simp [ha2]

theorem pyStrip_of_stripped (a : Str) (hL : pyStripLeft a = a) (hR : pyStripRight a = a) :
    pyStrip a = a := by
  rw [pyStrip, hL, hR]

theorem searchInlineStyle_eq_none (t : Str) (h : ∀ c ∈ t, c ≠ obrace) :
    BaseParser.searchInlineStyle t = none := by
  induction t with
  | nil => rfl
  | cons c rest ih =>
    have hc : c ≠ obrace := h c (by simp)
    have hm : BaseParser.inlineStyleMatchAt (c :: rest) = none := by
      unfold BaseParser.inlineStyleMatchAt
      split
      · rename_i c' a' rest' heq
        have hcc : c = c' := ((List.cons.injEq _ _ _ _).mp heq).1
        simp [← hcc, hc]
      · rfl
    rw [BaseParser.searchInlineStyle, hm]
    exact ih (fun d hd => h d (List.mem_cons_of_mem _ hd))

theorem searchClassId_eq_none (t : Str) (h : ∀ c ∈ t, c ≠ obrace) :
    BaseParser.searchClassId t = none := by
  induction t with
  | nil => rfl
  | cons c rest ih =>
    have hc : c ≠ obrace := h c (by simp)
    have hm : BaseParser.classIdMatchAt (c :: rest) = none := by
      unfold BaseParser.classIdMatchAt
      split
      · rename_i c' a' rest' heq
        have hcc : c = c' := ((List.cons.injEq _ _ _ _).mp heq).1
        simp [← hcc, hc]
      · rfl
    rw [BaseParser.searchClassId, hm]
    exact ih (fun d hd => h d (List.mem_cons_of_mem _ hd))

theorem extract_inline_attributes_of_noBrace (t : Str) (h : ∀ c ∈ t, c ≠ obrace) :
    BaseParser.extract_inline_attributes t = (pyStrip t, Attrs.empty) := by
  have h1 : BaseParser.styleLoop (t.length + 1) t none = (t, none) := by
    rw [BaseParser.styleLoop, searchInlineStyle_eq_none t h]
  have h2 : BaseParser.classLoop (t.length + 1) t none none = (t, none, none) := by
    rw [BaseParser.classLoop, searchClassId_eq_none t h]
  simp only [BaseParser.extract_inline_attributes, h1, h2, Attrs.empty]

theorem matchLinkAt_cons_none (c : Char) (r : Str) (h : c ≠ '[') :
    matchLinkAt (c :: r) = none := by
  unfold matchLinkAt
  split
  · rename_i rest heq
    exact absurd ((List.cons.injEq _ _ _ _).mp heq).1 h
  · rfl

theorem matchLinkAt_eq_none (r : Str) (h : ∀ c ∈ r, c ≠ '[') :
    matchLinkAt r = none := by
  cases r with
  | nil => rfl
  | cons c rest => exact matchLinkAt_cons_none c rest (h c (by simp))

theorem matchImageAt_eq_none (r : Str) (h : ∀ c ∈ r, c ≠ '[') :
    matchImageAt r = none := by
  cases r with
  | nil => rfl
  | cons c rest =>
    by_cases hc : c = '!'
    · subst hc
      have hdef : matchImageAt ('!' :: rest) =
          Option.map (fun t => ('!' :: t.1, t.2.1, t.2.2)) (matchLinkAt rest) := rfl
      rw [hdef, matchLinkAt_eq_none rest (fun d hd => h d (List.mem_cons_of_mem _ hd))]
      rfl
    · unfold matchImageAt
      split
      · rename_i rest' heq
        exact absurd ((List.cons.injEq _ _ _ _).mp heq).1 hc
      · rfl

theorem finditerBy_eq_nil (matchAt : Str → Option (Str × Str × Str))
    (hma : ∀ t, (∀ c ∈ t, c ≠ '[') → matchAt t = none) :
    ∀ (fuel pos : Nat) (t : Str), (∀ c ∈ t, c ≠ '[') →
      finditerBy matchAt fuel pos t = [] := by
  intro fuel
  induction fuel with
  | zero => intro pos t ht; rfl
  | succ f ih =>
    intro pos t ht
    cases t with
    | nil => rfl
    | cons c rest =>
      rw [finditerBy, hma _ ht]
      exact ih _ _ (fun d hd => ht d (List.mem_cons_of_mem _ hd))

theorem processInlineText_id (t : Str) (h1 : ∀ c ∈ t, c ≠ '[') :
    ElementParser.processInlineText t = t := by
  unfold ElementParser.processInlineText ElementParser.process_inline_elements
  rw [finditerBy_eq_nil matchLinkAt (fun t ht => matchLinkAt_eq_none t ht) _ _ _ h1,
      finditerBy_eq_nil matchImageAt (fun t ht => matchImageAt_eq_none t ht) _ _ _ h1]
  rfl

/-! ### Unterminated code fences (claim C4) -/

theorem splitOnce_append (sep : Char) (x y : Str) (hx : sep ∉ x) :
    splitOnce sep (x ++ sep :: y) = some (x, y) := by
  induction x with
  | nil => simp [splitOnce]
  | cons c cs ih =>
    have hc : c ≠ sep := by intro h; exact hx (by simp [h])
    have hcs : sep ∉ cs := fun h => hx (List.mem_cons_of_mem _ h)
    simp [splitOnce, hc, ih hcs]

theorem isTriplePrefix_eq_false (s : Str) (h : tick ∉ s) :
    ElementParser.isTriplePrefix s = false := by
  cases s with
  | nil => rfl
  | cons c cs =>
    have hc : (tick == c) = false := by
      refine beq_eq_false_iff_ne.mpr ?_
      intro hh
      exact h (by simp [← hh])
    simp [ElementParser.isTriplePrefix, List.isPrefixOf, hc]

theorem findTriple_eq_none (s : Str) (h : tick ∉ s) :
    ElementParser.findTriple s = none := by
  induction s with
  | nil => rfl
  | cons c cs ih =>
    have hcs : tick ∉ cs := fun hh => h (List.mem_cons_of_mem _ hh)
    simp [ElementParser.findTriple, isTriplePrefix_eq_false _ h, ih hcs]

theorem findTriple_two_ticks (xs : Str) (h : tick ∉ xs) :
    ElementParser.findTriple (tick :: tick :: xs) = none := by
  have hc0 : ∀ c ∈ xs, (tick == c) = false := by
    intro c hcm
    refine beq_eq_false_iff_ne.mpr ?_
    intro hh
    exact h (by rw [hh]; exact hcm)
  have h1 : ElementParser.isTriplePrefix (tick :: tick :: xs) = false := by
    cases xs with
    | nil => rfl
    | cons c cs =>
      simp [ElementParser.isTriplePrefix, List.isPrefixOf, hc0 c (by simp)]
  have h2 : ElementParser.isTriplePrefix (tick :: xs) = false := by
    cases xs with
    | nil => rfl
    | cons c cs =>
      simp [ElementParser.isTriplePrefix, List.isPrefixOf, hc0 c (by simp)]
  simp [ElementParser.findTriple, h1, h2, findTriple_eq_none xs h]

theorem codeScan_of_findTriple_none (f : Nat) (nl : Nat) (s : Str)
    (h : ElementParser.findTriple s = none) :
    ElementParser.codeScan f nl s = [] := by
  induction f generalizing nl s with
  | zero => rfl
  | succ f ih =>
    cases s with
    | nil => rfl
    | cons c cs =>
      have hp : ElementParser.isTriplePrefix (c :: cs) = false := by
        by_contra hcon
        have : ElementParser.isTriplePrefix (c :: cs) = true := by
          revert hcon; cases ElementParser.isTriplePrefix (c :: cs) <;> simp
        simp [ElementParser.findTriple, this] at h
      have hcs : ElementParser.findTriple cs = none := by
        by_contra hcon
        rcases Option.ne_none_iff_exists.mp (by exact hcon) with ⟨p, hp2⟩
        simp [ElementParser.findTriple, hp, ← hp2] at h
      simp [ElementParser.codeScan, hp, ih _ _ hcs]

/-- Claim C4 (amended): an opening triple-backtick fence with NO closing
fence anywhere later never matches `code_block_pattern` — the lazy body
`([\s\S]*?)` still requires the terminating backticks — so the code-block
pass emits NO element and claims NO lines; the fence region is left
unclaimed (and is in fact later consumed by the paragraph fallback), and no
error is raised (the pass is a total function). -/
theorem unterminated_fence_unclaimed (lang rest : Str) (claims : List Bool)
    (h1 : tick ∉ lang) (h2 : '\n' ∉ lang) (h3 : tick ∉ rest) :
    ElementParser.parse_code_blocks
        ([tick, tick, tick] ++ lang ++ '\n' :: rest) claims = ([], claims) := by
  have hxs : tick ∉ lang ++ '\n' :: rest := by
    intro h
    rcases List.mem_append.mp h with h | h
    · exact h1 h
    · rcases List.mem_cons.mp h with h | h
      · exact absurd h.symm (by decide)
      · exact h3 h
  have hlist : [tick, tick, tick] ++ lang ++ '\n' :: rest =
      tick :: (tick :: tick :: (lang ++ '\n' :: rest)) := by simp
  have hscan :
      ElementParser.codeScan
        (([tick, tick, tick] ++ lang ++ '\n' :: rest).length + 1) 0
        ([tick, tick, tick] ++ lang ++ '\n' :: rest) = [] := by
    rw [hlist]
    rw [ElementParser.codeScan]
    have hpre : ElementParser.isTriplePrefix
        (tick :: tick :: tick :: (lang ++ '\n' :: rest)) = true := by
      simp [ElementParser.isTriplePrefix, List.isPrefixOf]
    rw [hpre]
    have hdrop : List.drop 3 (tick :: tick :: tick :: (lang ++ '\n' :: rest)) =
        lang ++ '\n' :: rest := rfl
    simp only [if_true, hdrop]
    rw [splitOnce_append '\n' lang rest h2]
    simp only [findTriple_eq_none rest h3]
    exact codeScan_of_findTriple_none _ _ _ (findTriple_two_ticks _ hxs)
  unfold ElementParser.parse_code_blocks
  rw [hscan]
  rfl

/-- Witness for `unterminated_fence_unclaimed` at the concrete input
 ```py / x (an unterminated fence with a language tag). -/
theorem unterminated_fence_unclaimed_witness :
    ElementParser.parse_code_blocks
        ([tick, tick, tick] ++ "py".toList ++ '\n' :: "x".toList)
        [false, false] = ([], [false, false]) :=
  unterminated_fence_unclaimed "py".toList "x".toList [false, false]
    (by decide) (by decide) (by decide)

/-- Claim C3 (amended): for a heading match at the start of a four-line
document `t` / `===` / `x` / `y`, the heading pass ALWAYS claims the text
line, the underline line and the line after the underline (`x`), whatever
`x` is; the line two past the underline (`y`) is inspected for a
`\x7b@ ... \x7d` style declaration, and when it is one with a non-empty
dictionary it is claimed as well (four claimed lines), while any other `y`
stays unclaimed: the claim flags are `[true, true, true, true]` when `y`
is the style line `\x7b@ color: red; \x7d` and `[true, true, true, false]`
for every `y` that does not start with `\x7b@`.  In both cases exactly one
heading (at line 0) is emitted. -/
theorem heading_pass_claim_span (t x y : Str) (ht : t ≠ [])
    (hx2 : ElementParser.isUnderlineLine '-' x = false)
    (hx3 : ElementParser.isUnderlineLine '~' x = false)
    (hx4 : ElementParser.isUnderlineLine '^' x = false)
    (hx5 : ElementParser.isUnderlineLine '*' x = false)
    (hy1 : ElementParser.isUnderlineLine '=' y = false)
    (hy2 : ElementParser.isUnderlineLine '-' y = false)
    (hy3 : ElementParser.isUnderlineLine '~' y = false)
    (hy4 : ElementParser.isUnderlineLine '^' y = false)
    (hy5 : ElementParser.isUnderlineLine '*' y = false)
    (hysty : (obrace :: '@' :: []).isPrefixOf (pyStrip y) = false) :
    ((ElementParser.parse_headings [t, "===".toList, x, styleRedLine]
        [false, false, false, false]).2 = [true, true, true, true] ∧
      ((ElementParser.parse_headings [t, "===".toList, x, styleRedLine]
        [false, false, false, false]).1).map (fun p => p.1) = [0]) ∧
    ((ElementParser.parse_headings [t, "===".toList, x, y]
        [false, false, false, false]).2 = [true, true, true, false] ∧
      ((ElementParser.parse_headings [t, "===".toList, x, y]
        [false, false, false, false]).1).map (fun p => p.1) = [0]) := by
  have hte : t.isEmpty = false := by
    cases t with
    | nil => exact absurd rfl ht
    | cons c cs => rfl
  have hu1 : ElementParser.isUnderlineLine '=' ['=', '=', '='] = true := by decide
  have hu2 : ElementParser.isUnderlineLine '-' ['=', '=', '='] = false := by decide
  have hu3 : ElementParser.isUnderlineLine '~' ['=', '=', '='] = false := by decide
  have hu4 : ElementParser.isUnderlineLine '^' ['=', '=', '='] = false := by decide
  have hu5 : ElementParser.isUnderlineLine '*' ['=', '=', '='] = false := by decide
  have hue : (['=', '=', '='] : Str).isEmpty = false := by decide
  have hws : ElementParser.isWsLine styleRedLine = false := by decide
  have hs1 : ElementParser.isUnderlineLine '=' styleRedLine = false := by decide
  have hs2 : ElementParser.isUnderlineLine '-' styleRedLine = false := by decide
  have hs3 : ElementParser.isUnderlineLine '~' styleRedLine = false := by decide
  have hs4 : ElementParser.isUnderlineLine '^' styleRedLine = false := by decide
  have hs5 : ElementParser.isUnderlineLine '*' styleRedLine = false := by decide
  have s1A : ElementParser.scanHL '=' .norm 0 [t, ['=', '=', '='], x, styleRedLine]
      = [0] := by
    cases hw : ElementParser.isWsLine x <;>
      simp [ElementParser.scanHL, hte, hu1, hw, hws, hs1]
  have s2A : ElementParser.scanHL '-' .norm 0 [t, ['=', '=', '='], x, styleRedLine]
      = [] := by
    simp [ElementParser.scanHL, hte, hu2, hue, hx2, hs2]
  have s3A : ElementParser.scanHL '~' .norm 0 [t, ['=', '=', '='], x, styleRedLine]
      = [] := by
    simp [ElementParser.scanHL, hte, hu3, hue, hx3, hs3]
  have s4A : ElementParser.scanHL '^' .norm 0 [t, ['=', '=', '='], x, styleRedLine]
      = [] := by
    simp [ElementParser.scanHL, hte, hu4, hue, hx4, hs4]
  have s5A : ElementParser.scanHL '*' .norm 0 [t, ['=', '=', '='], x, styleRedLine]
      = [] := by
    simp [ElementParser.scanHL, hte, hu5, hue, hx5, hs5]
  have s1B : ElementParser.scanHL '=' .norm 0 [t, ['=', '=', '='], x, y] = [0] := by
    cases hw : ElementParser.isWsLine x <;> cases hwy : ElementParser.isWsLine y <;>
      simp [ElementParser.scanHL, hte, hu1, hw, hwy, hy1]
  have s2B : ElementParser.scanHL '-' .norm 0 [t, ['=', '=', '='], x, y] = [] := by
    simp [ElementParser.scanHL, hte, hu2, hue, hx2, hy2]
  have s3B : ElementParser.scanHL '~' .norm 0 [t, ['=', '=', '='], x, y] = [] := by
    simp [ElementParser.scanHL, hte, hu3, hue, hx3, hy3]
  have s4B : ElementParser.scanHL '^' .norm 0 [t, ['=', '=', '='], x, y] = [] := by
    simp [ElementParser.scanHL, hte, hu4, hue, hx4, hy4]
  have s5B : ElementParser.scanHL '*' .norm 0 [t, ['=', '=', '='], x, y] = [] := by
    simp [ElementParser.scanHL, hte, hu5, hue, hx5, hy5]
  have hstyA : ElementParser.headingStyleAfter [t, ['=', '=', '='], x, styleRedLine]
      [false, false, false, false] 2
      = (some [("color".toList, "red".toList)], [false, false, false, true]) := rfl
  have hstyB : ElementParser.headingStyleAfter [t, ['=', '=', '='], x, y]
      [false, false, false, false] 2 = (none, [false, false, false, false]) := by
    unfold ElementParser.headingStyleAfter
    have hget : List.getD [t, ['=', '=', '='], x, y] (2 + 1) ([] : Str) = y := rfl
    have hlen : 2 + 1 < List.length [t, ['=', '=', '='], x, y] := by simp
    rw [if_pos hlen, hget]
    have hcond : ((obrace :: '@' :: []).isPrefixOf (pyStrip y)
        && ((pyStrip y).getLast? == some cbrace)) = false := by
      rw [hysty]
      rfl
    simp only [hcond]
    simp
  have hsetA : Ddown.setClaims [false, false, false, true] 0 2
      = [true, true, true, true] := rfl
  have hsetB : Ddown.setClaims [false, false, false, false] 0 2
      = [true, true, true, false] := rfl
  refine ⟨⟨?_, ?_⟩, ?_, ?_⟩ <;>
    simp [ElementParser.parse_headings, ElementParser.heading_levels,
      s1A, s2A, s3A, s4A, s5A, s1B, s2B, s3B, s4B, s5B,
      ElementParser.processHeading, hstyA, hstyB, hsetA, hsetB]

/-- Witness for `heading_pass_claim_span`: the concrete headings
`Title` / `===` / `hello` / `\x7b@ color: red; \x7d` (four claimed lines:
the style line is parsed AND claimed) and `Title` / `===` / `hello` /
`world` (the non-style fourth line stays unclaimed, while `hello` is
claimed). -/
theorem heading_pass_claim_span_witness :
    ((ElementParser.parse_headings ["Title".toList, "===".toList, "hello".toList,
        styleRedLine] [false, false, false, false]).2 = [true, true, true, true] ∧
      ((ElementParser.parse_headings ["Title".toList, "===".toList, "hello".toList,
        styleRedLine] [false, false, false, false]).1).map (fun p => p.1) = [0]) ∧
    ((ElementParser.parse_headings ["Title".toList, "===".toList, "hello".toList,
        "world".toList] [false, false, false, false]).2 = [true, true, true, false] ∧
      ((ElementParser.parse_headings ["Title".toList, "===".toList, "hello".toList,
        "world".toList] [false, false, false, false]).1).map (fun p => p.1) = [0]) :=
  heading_pass_claim_span "Title".toList "hello".toList "world".toList
    (by decide) (by decide) (by decide) (by decide) (by decide)
    (by decide) (by decide) (by decide) (by decide) (by decide) (by decide)

/-! ### String-rewriting lemmas for the attribute-grammar proofs -/

theorem replaceAll_of_not_hasSub (pat rep : Str) :
    ∀ (s : Str) (fuel : Nat), hasSub pat s = false → replaceAll pat rep fuel s = s := by
  intro s
  induction s with
  | nil => intro fuel h; cases fuel <;> rfl
  | cons c rest ih =>
    intro fuel h
    cases fuel with
    | zero => rfl
    | succ f =>
      have hsub : hasSub pat (c :: rest) =
          (pat.isPrefixOf (c :: rest) || hasSub pat rest) := rfl
      rw [hsub] at h
      have hpre : pat.isPrefixOf (c :: rest) = false := by
        revert h; cases pat.isPrefixOf (c :: rest) <;> simp
      have hrest : hasSub pat rest = false := by
        revert h; cases hasSub pat rest <;> simp
      rw [replaceAll, if_neg (by rw [hpre]; simp), ih f hrest]

theorem hasSub_skip (hc : Char) (pt : Str) (x y : Str) (hx : ∀ c ∈ x, c ≠ hc) :
    hasSub (hc :: pt) (x ++ y) = hasSub (hc :: pt) y := by
  induction x with
  | nil => rfl
  | cons c cs ih =>
    have hcc : (hc == c) = false := by
      refine beq_eq_false_iff_ne.mpr ?_
      intro h
      exact hx c (by simp) h.symm
    have hpre : (hc :: pt).isPrefixOf (c :: (cs ++ y)) = false := by
      simp [List.isPrefixOf, hcc]
    calc hasSub (hc :: pt) ((c :: cs) ++ y)
        = ((hc :: pt).isPrefixOf (c :: (cs ++ y)) || hasSub (hc :: pt) (cs ++ y)) := rfl
      _ = hasSub (hc :: pt) (cs ++ y) := by rw [hpre]; simp
      _ = hasSub (hc :: pt) y := ih (fun d hd => hx d (List.mem_cons_of_mem _ hd))

theorem hasSub_eq_false (hc : Char) (pt : Str) (y : Str) (hy : ∀ c ∈ y, c ≠ hc) :
    hasSub (hc :: pt) y = false := by
  have h := hasSub_skip hc pt y [] hy
  rw [List.append_nil] at h
  rw [h]
  rfl

theorem replaceAll_boundary (hc : Char) (pt rep : Str) :
    ∀ (pre suf : Str) (fuel : Nat), (∀ c ∈ pre, c ≠ hc) →
      hasSub (hc :: pt) suf = false →
      fuel ≥ (pre ++ (hc :: pt) ++ suf).length →
      replaceAll (hc :: pt) rep fuel (pre ++ (hc :: pt) ++ suf) = pre ++ rep ++ suf := by
  intro pre
  induction pre with
  | nil =>
    intro suf fuel hpre hsuf hfuel
    cases fuel with
    | zero => simp at hfuel
    | succ f =>
      have hshape : ([] : Str) ++ (hc :: pt) ++ suf = hc :: (pt ++ suf) := by simp
      rw [hshape, replaceAll]
      have hpre2 : (hc :: pt).isPrefixOf (hc :: (pt ++ suf)) = true := by
        refine List.isPrefixOf_iff_prefix.mpr ?_
        exact ⟨suf, by simp⟩
      rw [if_pos (by rw [hpre2]; simp)]
      have hdrop : (hc :: (pt ++ suf)).drop (hc :: pt).length = suf := by
        have := List.drop_left (hc :: pt) suf
        simpa using this
      rw [hdrop, replaceAll_of_not_hasSub _ _ _ _ hsuf]
      simp
  | cons c cs ih =>
    intro suf fuel hpre hsuf hfuel
    cases fuel with
    | zero => simp at hfuel
    | succ f =>
      have hcc : (hc == c) = false := by
        refine beq_eq_false_iff_ne.mpr ?_
        intro h
        exact hpre c (by simp) h.symm
      have hshape : (c :: cs) ++ (hc :: pt) ++ suf = c :: (cs ++ (hc :: pt) ++ suf) := by
        simp
      rw [hshape, replaceAll]
      have hpre2 : (hc :: pt).isPrefixOf (c :: (cs ++ (hc :: pt) ++ suf)) = false := by
        simp [List.isPrefixOf, hcc]
      rw [if_neg (by rw [hpre2]; simp)]
      have hrec := ih suf f (fun d hd => hpre d (List.mem_cons_of_mem _ hd)) hsuf
        (by simp at hfuel ⊢; omega)
      rw [hrec]
      simp

theorem takeWhile_all_append (p : Char → Bool) (u v : Str) (hu : ∀ c ∈ u, p c = true) :
    List.takeWhile p (u ++ v) = u ++ List.takeWhile p v := by
  induction u with
  | nil => rfl
  | cons c cs ih =>
    have hc : p c = true := hu c (by simp)
    simp only [List.cons_append, List.takeWhile_cons, hc, if_true]
    rw [ih (fun d hd => hu d (List.mem_cons_of_mem _ hd))]

theorem pyStripRight_of_all_nonws (u : Str) (h : ∀ c ∈ u, isPySpace c = false) :
    pyStripRight u = u := by
  unfold pyStripRight
  cases hrev : u.reverse with
  | nil =>
    have : u = [] := by simpa using congrArg List.reverse hrev
    subst this
    rfl
  | cons c r =>
    have hc : isPySpace c = false := by
      apply h
      have : c ∈ u.reverse := by rw [hrev]; simp
      simpa using this
    rw [List.dropWhile_cons, hc]
    simp [← hrev]

theorem pySplitWs_all_nonws (u : Str) (h : ∀ c ∈ u, isPySpace c = false) (hne : u ≠ []) :
    pySplitWs u = [u] := by
  induction u with
  | nil => exact absurd rfl hne
  | cons c cs ih =>
    have hc : isPySpace c = false := h c (by simp)
    cases cs with
    | nil => simp [pySplitWs, hc]
    | cons d ds =>
      have hd : isPySpace d = false := h d (by simp)
      have hrec : pySplitWs (d :: ds) = [d :: ds] :=
        ih (fun e he => h e (List.mem_cons_of_mem _ he)) (by simp)
      rw [pySplitWs, hrec]
      simp [hc, hd]

theorem pySplitWs_token_append (u v : Str) (h : ∀ c ∈ u, isPySpace c = false)
    (hne : u ≠ []) :
    pySplitWs (u ++ ' ' :: v) = u :: pySplitWs v := by
  induction u with
  | nil => exact absurd rfl hne
  | cons c cs ih =>
    have hc : isPySpace c = false := h c (by simp)
    cases cs with
    | nil =>
      have hsp : isPySpace ' ' = true := by decide
      simp only [List.cons_append, List.nil_append, pySplitWs, hc, Bool.false_eq_true,
        if_false, hsp, if_true]
      cases hres : pySplitWs v with
      | nil => simp [hsp]
      | cons h2 t2 => simp [hsp]
    | cons d ds =>
      have hd : isPySpace d = false := h d (by simp)
      have hrec : pySplitWs ((d :: ds) ++ ' ' :: v) = (d :: ds) :: pySplitWs v :=
        ih (fun e he => h e (List.mem_cons_of_mem _ he)) (by simp)
      simp only [List.cons_append, pySplitWs, hc, Bool.false_eq_true, if_false] at hrec ⊢
      rw [hrec]
      simp [hd]

/-! ### Last-id-wins in the attribute grammar (claim C7) -/

theorem classIdMatchAt_cons_none (c : Char) (r : Str) (h : c ≠ obrace) :
    BaseParser.classIdMatchAt (c :: r) = none := by
  unfold BaseParser.classIdMatchAt
  split
  · rename_i c' a' rest' heq
    have hcc : c = c' := ((List.cons.injEq _ _ _ _).mp heq).1
    simp [← hcc, h]
  · rfl

theorem inlineStyleMatchAt_cons_none (c : Char) (r : Str) (h : c ≠ obrace) :
    BaseParser.inlineStyleMatchAt (c :: r) = none := by
  unfold BaseParser.inlineStyleMatchAt
  split
  · rename_i c' a' rest' heq
    have hcc : c = c' := ((List.cons.injEq _ _ _ _).mp heq).1
    simp [← hcc, h]
  · rfl

theorem searchClassId_skip (x y : Str) (hx : ∀ c ∈ x, c ≠ obrace) :
    BaseParser.searchClassId (x ++ y) = BaseParser.searchClassId y := by
  induction x with
  | nil => rfl
  | cons c cs ih =>
    have hshape : (c :: cs) ++ y = c :: (cs ++ y) := rfl
    rw [hshape, BaseParser.searchClassId,
      classIdMatchAt_cons_none c _ (hx c (by simp))]
    exact ih (fun d hd => hx d (List.mem_cons_of_mem _ hd))

theorem searchInlineStyle_skip (x y : Str) (hx : ∀ c ∈ x, c ≠ obrace) :
    BaseParser.searchInlineStyle (x ++ y) = BaseParser.searchInlineStyle y := by
  induction x with
  | nil => rfl
  | cons c cs ih =>
    have hshape : (c :: cs) ++ y = c :: (cs ++ y) := rfl
    rw [hshape, BaseParser.searchInlineStyle,
      inlineStyleMatchAt_cons_none c _ (hx c (by simp))]
    exact ih (fun d hd => hx d (List.mem_cons_of_mem _ hd))

theorem inlineStyleMatchAt_not_at (a' : Char) (z : Str) (ha : a' ≠ '@') :
    BaseParser.inlineStyleMatchAt (obrace :: a' :: z) = none := by
  unfold BaseParser.inlineStyleMatchAt
  simp [ha]

/-- Characters of a class/id block other than the braces. -/
theorem classIdBlock_inner_no_obrace (x y : Str)
    (hx : ∀ c ∈ x, c ≠ obrace) (hy : ∀ c ∈ y, c ≠ obrace) :
    ∀ c ∈ '.' :: (x ++ ' ' :: '#' :: (y ++ [cbrace])), c ≠ obrace := by
  intro c hc
  rcases List.mem_cons.mp hc with rfl | hc
  · decide
  rcases List.mem_append.mp hc with hc | hc
  · exact hx c hc
  rcases List.mem_cons.mp hc with rfl | hc
  · decide
  rcases List.mem_cons.mp hc with rfl | hc
  · decide
  rcases List.mem_append.mp hc with hc | hc
  · exact hy c hc
  · rcases List.mem_singleton.mp hc with rfl
    decide

theorem searchInlineStyle_block (x y rest : Str)
    (hx : ∀ c ∈ x, c ≠ obrace) (hy : ∀ c ∈ y, c ≠ obrace) :
    BaseParser.searchInlineStyle (classIdBlock x y ++ rest) =
      BaseParser.searchInlineStyle rest := by
  have hshape : classIdBlock x y ++ rest =
      obrace :: '.' :: ((x ++ ' ' :: '#' :: (y ++ [cbrace])) ++ rest) := by
    simp [classIdBlock]
  rw [hshape, BaseParser.searchInlineStyle, inlineStyleMatchAt_not_at '.' _ (by decide)]
  have hshape2 : ('.' :: (x ++ ' ' :: '#' :: (y ++ [cbrace]))) ++ rest =
      '.' :: ((x ++ ' ' :: '#' :: (y ++ [cbrace])) ++ rest) := rfl
  rw [← hshape2, searchInlineStyle_skip _ rest (classIdBlock_inner_no_obrace x y hx hy)]

theorem classIdMatchAt_block (x y rest : Str)
    (hx : ∀ c ∈ x, c ≠ cbrace ∧ isPySpace c = false)
    (hy : ∀ c ∈ y, c ≠ cbrace ∧ isPySpace c = false) :
    BaseParser.classIdMatchAt (classIdBlock x y ++ rest) =
      some (classIdBlock x y, '.' :: (x ++ ' ' :: '#' :: y)) := by
  have hassoc : x ++ ' ' :: '#' :: (y ++ cbrace :: rest) =
      (x ++ ' ' :: '#' :: y) ++ (cbrace :: rest) := by simp
  have hshape : classIdBlock x y ++ rest =
      obrace :: '.' :: (x ++ ' ' :: '#' :: (y ++ cbrace :: rest)) := by
    simp [classIdBlock]
  have hrun : List.takeWhile (fun d => d ≠ cbrace)
      (x ++ ' ' :: '#' :: (y ++ cbrace :: rest)) = x ++ ' ' :: '#' :: y := by
    rw [hassoc, takeWhile_all_append]
    · have hnil : List.takeWhile (fun d => d ≠ cbrace) (cbrace :: rest) = [] := by
        simp [List.takeWhile_cons]
      rw [hnil, List.append_nil]
    · intro c hc
      simp only [decide_eq_true_eq]
      rcases List.mem_append.mp hc with hc | hc
      · exact (hx c hc).1
      rcases List.mem_cons.mp hc with rfl | hc
      · decide
      rcases List.mem_cons.mp hc with rfl | hc
      · decide
      · exact (hy c hc).1
  have hdrop : (x ++ ' ' :: '#' :: (y ++ cbrace :: rest)).drop
      (x ++ ' ' :: '#' :: y).length = cbrace :: rest := by
    rw [hassoc]
    exact List.drop_left _ _
  rw [hshape]
  simp only [BaseParser.classIdMatchAt]
  rw [if_pos (show True ∧ ('.' = '#' ∨ True) from ⟨trivial, Or.inr trivial⟩)]
  simp only [hrun, hdrop]
  rw [if_pos (by refine ⟨by simp; omega, rfl⟩)]
  simp [classIdBlock]

theorem searchClassId_block (x y rest : Str)
    (hx : ∀ c ∈ x, c ≠ cbrace ∧ isPySpace c = false)
    (hy : ∀ c ∈ y, c ≠ cbrace ∧ isPySpace c = false) :
    BaseParser.searchClassId (classIdBlock x y ++ rest) =
      some (classIdBlock x y, '.' :: (x ++ ' ' :: '#' :: y)) := by
  have hshape : classIdBlock x y ++ rest =
      obrace :: ('.' :: (x ++ ' ' :: '#' :: (y ++ [cbrace])) ++ rest) := by
    simp [classIdBlock]
  rw [hshape, BaseParser.searchClassId, ← hshape, classIdMatchAt_block x y rest hx hy]

theorem pyStrip_group (x y : Str)
    (hx : ∀ c ∈ x, isPySpace c = false)
    (hy : ∀ c ∈ y, isPySpace c = false) (hyne : y ≠ []) :
    pyStrip ('.' :: (x ++ ' ' :: '#' :: y)) = '.' :: (x ++ ' ' :: '#' :: y) := by
  have hL : pyStripLeft ('.' :: (x ++ ' ' :: '#' :: y)) = '.' :: (x ++ ' ' :: '#' :: y) :=
    pyStripLeft_cons _ (by decide)
  have hyR : pyStripRight y = y := pyStripRight_of_all_nonws y hy
  have hR := pyStripRight_append ('.' :: x ++ [' ', '#']) y hyne hyR
  have hshape : ('.' :: x ++ [' ', '#']) ++ y = '.' :: (x ++ ' ' :: '#' :: y) := by simp
  rw [pyStrip, hL, ← hshape, hR, hshape]

theorem parseSelectors_group (x y : Str)
    (hx : ∀ c ∈ x, isPySpace c = false) (hxne : x ≠ [])
    (hy : ∀ c ∈ y, isPySpace c = false) (hyne : y ≠ []) :
    BaseParser.parseSelectors ('.' :: (x ++ ' ' :: '#' :: y)) = ([x], some y) := by
  have h1 : pySplitWs (('.' :: x) ++ ' ' :: ('#' :: y)) = ('.' :: x) :: pySplitWs ('#' :: y) :=
    pySplitWs_token_append ('.' :: x) ('#' :: y)
      (by
        intro c hc
        rcases List.mem_cons.mp hc with rfl | hc
        · decide
        · exact hx c hc)
      (by simp)
  have h2 : pySplitWs ('#' :: y) = [('#' :: y)] :=
    pySplitWs_all_nonws ('#' :: y)
      (by
        intro c hc
        rcases List.mem_cons.mp hc with rfl | hc
        · decide
        · exact hy c hc)
      (by simp)
  have hshape : ('.' :: x) ++ ' ' :: ('#' :: y) = '.' :: (x ++ ' ' :: '#' :: y) := rfl
  unfold BaseParser.parseSelectors
  rw [← hshape, h1, h2]
  simp [List.foldl]

/-- Claim C7 (amended): in `BaseParser.extract_inline_attributes`, when the
text contains two class/id blocks `\x7b.a #f\x7d ... \x7b.b #s\x7d` embedded
in brace-free surroundings and the first block's text does not recur at the
second block's position (it is not a prefix of the remainder there), the id
of the LAST block wins (`id = s`) and the classes of both blocks accumulate
in order (`classes = [a, b]`). -/
theorem last_id_wins (pre mid post a f b s : Str)
    (hpre : ∀ c ∈ pre, c ≠ obrace) (hmid : ∀ c ∈ mid, c ≠ obrace)
    (hpost : ∀ c ∈ post, c ≠ obrace)
    (ha : ∀ c ∈ a, c ≠ obrace ∧ c ≠ cbrace ∧ isPySpace c = false) (hane : a ≠ [])
    (hf : ∀ c ∈ f, c ≠ obrace ∧ c ≠ cbrace ∧ isPySpace c = false) (hfne : f ≠ [])
    (hb : ∀ c ∈ b, c ≠ obrace ∧ c ≠ cbrace ∧ isPySpace c = false) (hbne : b ≠ [])
    (hs : ∀ c ∈ s, c ≠ obrace ∧ c ≠ cbrace ∧ isPySpace c = false) (hsne : s ≠ [])
    (hnopre : ¬ (classIdBlock a f <+: classIdBlock b s ++ post)) :
    (BaseParser.extract_inline_attributes
        (pre ++ (classIdBlock a f ++ (mid ++ (classIdBlock b s ++ post))))).2.id
      = some s ∧
    (BaseParser.extract_inline_attributes
        (pre ++ (classIdBlock a f ++ (mid ++ (classIdBlock b s ++ post))))).2.classes
      = some [a, b] := by
  have ha1 : ∀ c ∈ a, c ≠ obrace := fun c hc => (ha c hc).1
  have hf1 : ∀ c ∈ f, c ≠ obrace := fun c hc => (hf c hc).1
  have hb1 : ∀ c ∈ b, c ≠ obrace := fun c hc => (hb c hc).1
  have hs1 : ∀ c ∈ s, c ≠ obrace := fun c hc => (hs c hc).1
  have ha2 : ∀ c ∈ a, c ≠ cbrace ∧ isPySpace c = false := fun c hc => (ha c hc).2
  have hf2 : ∀ c ∈ f, c ≠ cbrace ∧ isPySpace c = false := fun c hc => (hf c hc).2
  have hb2 : ∀ c ∈ b, c ≠ cbrace ∧ isPySpace c = false := fun c hc => (hb c hc).2
  have hs2 : ∀ c ∈ s, c ≠ cbrace ∧ isPySpace c = false := fun c hc => (hs c hc).2
  have hanw : ∀ c ∈ a, isPySpace c = false := fun c hc => (ha c hc).2.2
  have hfnw : ∀ c ∈ f, isPySpace c = false := fun c hc => (hf c hc).2.2
  have hbnw : ∀ c ∈ b, isPySpace c = false := fun c hc => (hb c hc).2.2
  have hsnw : ∀ c ∈ s, isPySpace c = false := fun c hc => (hs c hc).2.2
  have hB1 : classIdBlock a f = obrace :: ('.' :: (a ++ ' ' :: '#' :: (f ++ [cbrace]))) := rfl
  have hB2 : classIdBlock b s = obrace :: ('.' :: (b ++ ' ' :: '#' :: (s ++ [cbrace]))) := rfl
  have hstyle : BaseParser.searchInlineStyle
      (pre ++ (classIdBlock a f ++ (mid ++ (classIdBlock b s ++ post)))) = none := by
    rw [searchInlineStyle_skip pre _ hpre, searchInlineStyle_block a f _ ha1 hf1,
      searchInlineStyle_skip mid _ hmid, searchInlineStyle_block b s _ hb1 hs1,
      searchInlineStyle_eq_none post hpost]
  have hsl : BaseParser.styleLoop
      ((pre ++ (classIdBlock a f ++ (mid ++ (classIdBlock b s ++ post)))).length + 1)
      (pre ++ (classIdBlock a f ++ (mid ++ (classIdBlock b s ++ post)))) none
      = (pre ++ (classIdBlock a f ++ (mid ++ (classIdBlock b s ++ post))), none) := by
    rw [BaseParser.styleLoop, hstyle]
  have hcls1 : BaseParser.searchClassId
      (pre ++ (classIdBlock a f ++ (mid ++ (classIdBlock b s ++ post))))
      = some (classIdBlock a f, '.' :: (a ++ ' ' :: '#' :: f)) := by
    rw [searchClassId_skip pre _ hpre, searchClassId_block a f _ ha2 hf2]
  have hip : (classIdBlock a f).isPrefixOf (classIdBlock b s ++ post) = false := by
    cases hIP : (classIdBlock a f).isPrefixOf (classIdBlock b s ++ post)
    · rfl
    · exact absurd (List.isPrefixOf_iff_prefix.mp hIP) hnopre
  have hsubtail : hasSub (classIdBlock a f)
      (('.' :: (b ++ ' ' :: '#' :: (s ++ [cbrace]))) ++ post) = false := by
    have h1 := hasSub_skip obrace ('.' :: (a ++ ' ' :: '#' :: (f ++ [cbrace])))
      ('.' :: (b ++ ' ' :: '#' :: (s ++ [cbrace]))) post
      (classIdBlock_inner_no_obrace b s hb1 hs1)
    have h2 := hasSub_eq_false obrace ('.' :: (a ++ ' ' :: '#' :: (f ++ [cbrace])))
      post hpost
    exact h1.trans h2
  have hsub1 : hasSub (classIdBlock a f) (mid ++ (classIdBlock b s ++ post)) = false := by
    have hskipmid := hasSub_skip obrace ('.' :: (a ++ ' ' :: '#' :: (f ++ [cbrace])))
      mid (classIdBlock b s ++ post) hmid
    have hcons : hasSub (classIdBlock a f) (classIdBlock b s ++ post)
        = ((classIdBlock a f).isPrefixOf (classIdBlock b s ++ post)
          || hasSub (classIdBlock a f)
              (('.' :: (b ++ ' ' :: '#' :: (s ++ [cbrace]))) ++ post)) := rfl
    calc hasSub (classIdBlock a f) (mid ++ (classIdBlock b s ++ post))
        = hasSub (classIdBlock a f) (classIdBlock b s ++ post) := hskipmid
      _ = _ := hcons
      _ = false := by rw [hip, hsubtail]; rfl
  have hr1 : replaceAll (classIdBlock a f) []
      (pre ++ (classIdBlock a f ++ (mid ++ (classIdBlock b s ++ post)))).length
      (pre ++ (classIdBlock a f ++ (mid ++ (classIdBlock b s ++ post))))
      = pre ++ (mid ++ (classIdBlock b s ++ post)) := by
    have hassocT : pre ++ (classIdBlock a f ++ (mid ++ (classIdBlock b s ++ post)))
        = pre ++ classIdBlock a f ++ (mid ++ (classIdBlock b s ++ post)) :=
      (List.append_assoc _ _ _).symm
    rw [hassocT, hB1]
    have h := replaceAll_boundary obrace ('.' :: (a ++ ' ' :: '#' :: (f ++ [cbrace]))) []
      pre (mid ++ (classIdBlock b s ++ post))
      (pre ++ obrace :: ('.' :: (a ++ ' ' :: '#' :: (f ++ [cbrace])))
        ++ (mid ++ (classIdBlock b s ++ post))).length
      hpre hsub1 (Nat.le_refl _)
    rw [h]
    simp
  have hps1 : BaseParser.parseSelectors (pyStrip ('.' :: (a ++ ' ' :: '#' :: f)))
      = ([a], some f) := by
    rw [pyStrip_group a f hanw hfnw hfne, parseSelectors_group a f hanw hane hfnw hfne]
  have hc1 : BaseParser.classLoop
      ((pre ++ (classIdBlock a f ++ (mid ++ (classIdBlock b s ++ post)))).length + 1)
      (pre ++ (classIdBlock a f ++ (mid ++ (classIdBlock b s ++ post)))) none none
      = BaseParser.classLoop
        (pre ++ (classIdBlock a f ++ (mid ++ (classIdBlock b s ++ post)))).length
        (pre ++ (mid ++ (classIdBlock b s ++ post))) (some [a]) (some f) := by
    rw [BaseParser.classLoop, hcls1]
    simp only [hps1, hr1]
    simp
  have hcls2 : BaseParser.searchClassId (pre ++ (mid ++ (classIdBlock b s ++ post)))
      = some (classIdBlock b s, '.' :: (b ++ ' ' :: '#' :: s)) := by
    rw [searchClassId_skip pre _ hpre, searchClassId_skip mid _ hmid,
      searchClassId_block b s post hb2 hs2]
  have hsub2 : hasSub (classIdBlock b s) post = false :=
    hasSub_eq_false obrace ('.' :: (b ++ ' ' :: '#' :: (s ++ [cbrace]))) post hpost
  have hpm : ∀ c ∈ pre ++ mid, c ≠ obrace := by
    intro c hc
    rcases List.mem_append.mp hc with hc | hc
    · exact hpre c hc
    · exact hmid c hc
  have hr2 : replaceAll (classIdBlock b s) []
      (pre ++ (mid ++ (classIdBlock b s ++ post))).length
      (pre ++ (mid ++ (classIdBlock b s ++ post))) = pre ++ (mid ++ post) := by
    have hT1 : pre ++ (mid ++ (classIdBlock b s ++ post))
        = (pre ++ mid) ++ (classIdBlock b s ++ post) := (List.append_assoc pre mid _).symm
    have hT1b : (pre ++ mid) ++ (classIdBlock b s ++ post)
        = (pre ++ mid) ++ classIdBlock b s ++ post := (List.append_assoc _ _ _).symm
    rw [hT1, hT1b, hB2]
    have h := replaceAll_boundary obrace ('.' :: (b ++ ' ' :: '#' :: (s ++ [cbrace]))) []
      (pre ++ mid) post
      ((pre ++ mid) ++ obrace :: ('.' :: (b ++ ' ' :: '#' :: (s ++ [cbrace]))) ++ post).length
      hpm hsub2 (Nat.le_refl _)
    rw [h]
    simp
  have hps2 : BaseParser.parseSelectors (pyStrip ('.' :: (b ++ ' ' :: '#' :: s)))
      = ([b], some s) := by
    rw [pyStrip_group b s hbnw hsnw hsne, parseSelectors_group b s hbnw hbne hsnw hsne]
  have hlen2 : 2 ≤ (pre ++ (classIdBlock a f ++ (mid ++ (classIdBlock b s ++ post)))).length := by
    simp only [classIdBlock, List.length_append, List.length_cons]
    omega
  have hc2 : BaseParser.classLoop
      (pre ++ (classIdBlock a f ++ (mid ++ (classIdBlock b s ++ post)))).length
      (pre ++ (mid ++ (classIdBlock b s ++ post))) (some [a]) (some f)
      = BaseParser.classLoop
        ((pre ++ (classIdBlock a f ++ (mid ++ (classIdBlock b s ++ post)))).length - 1)
        (pre ++ (mid ++ post)) (some [a, b]) (some s) := by
    have hfuel : (pre ++ (classIdBlock a f ++ (mid ++ (classIdBlock b s ++ post)))).length
        = ((pre ++ (classIdBlock a f ++ (mid ++ (classIdBlock b s ++ post)))).length - 1)
          + 1 := by
      omega
    nth_rewrite 1 [hfuel]
    rw [BaseParser.classLoop, hcls2]
    simp only [hps2, hr2]
    simp
  have hcls3 : BaseParser.searchClassId (pre ++ (mid ++ post)) = none := by
    rw [searchClassId_skip pre _ hpre, searchClassId_skip mid _ hmid,
      searchClassId_eq_none post hpost]
  have hc3 : BaseParser.classLoop
      ((pre ++ (classIdBlock a f ++ (mid ++ (classIdBlock b s ++ post)))).length - 1)
      (pre ++ (mid ++ post)) (some [a, b]) (some s)
      = (pre ++ (mid ++ post), some [a, b], some s) := by
    have hfuel : (pre ++ (classIdBlock a f ++ (mid ++ (classIdBlock b s ++ post)))).length - 1
        = ((pre ++ (classIdBlock a f ++ (mid ++ (classIdBlock b s ++ post)))).length - 2)
          + 1 := by
      omega
    rw [hfuel, BaseParser.classLoop, hcls3]
  have h0 : BaseParser.extract_inline_attributes
      (pre ++ (classIdBlock a f ++ (mid ++ (classIdBlock b s ++ post))))
      = (pyStrip (pre ++ (mid ++ post)), ⟨none, some [a, b], some s⟩) := by
    simp only [BaseParser.extract_inline_attributes, hsl, hc1, hc2, hc3]
  exact ⟨by rw [h0], by rw [h0]⟩

theorem last_id_wins_witness :
    (BaseParser.extract_inline_attributes
        (['p'] ++ (classIdBlock ['b','i','g'] ['f','i','r','s','t'] ++ (['m']
          ++ (classIdBlock ['c','l','s'] ['s','e','c','o','n','d'] ++ ['q']))))).2.id
      = some ['s','e','c','o','n','d'] ∧
    (BaseParser.extract_inline_attributes
        (['p'] ++ (classIdBlock ['b','i','g'] ['f','i','r','s','t'] ++ (['m']
          ++ (classIdBlock ['c','l','s'] ['s','e','c','o','n','d'] ++ ['q']))))).2.classes
      = some [['b','i','g'], ['c','l','s']] :=
  last_id_wins ['p'] ['m'] ['q'] ['b','i','g'] ['f','i','r','s','t']
    ['c','l','s'] ['s','e','c','o','n','d']
    (by decide) (by decide) (by decide) (by decide) (by decide) (by decide) (by decide)
    (by decide) (by decide) (by decide) (by decide) (by decide)

/-- Claim C7 (counterexample): when a block's matched text occurs more than
once, the loop's replace-all deletion removes every occurrence after the
first match, so the claim fails on such fragments: `\x7b#x\x7d \x7b#y\x7d
\x7b#x\x7d` yields id `y` — not the id `x` of the LAST block — because the
first match deletes both `\x7b#x\x7d` occurrences before `\x7b#y\x7d` is
processed; and `\x7b.a #f\x7d x \x7b.a #f\x7d` yields classes `[a]`, not
the accumulated `[a, a]` of every block. -/
theorem repeated_block_breaks_accumulation :
    (BaseParser.extract_inline_attributes
        "\x7b#x\x7d \x7b#y\x7d \x7b#x\x7d".toList).2.id = some ['y'] ∧
    (BaseParser.extract_inline_attributes
        "\x7b.a #f\x7d x \x7b.a #f\x7d".toList).2.classes = some [['a']] := by
  constructor <;> decide

/-! ### Image precedence over links (claim C8) -/

theorem matchImageAt_cons_none (c : Char) (r : Str) (h : c ≠ '!') :
    matchImageAt (c :: r) = none := by
  unfold matchImageAt
  split
  · rename_i rest heq
    exact absurd ((List.cons.injEq _ _ _ _).mp heq).1 h
  · rfl

theorem parenScan_group (u post : Str) (hu : ∀ c ∈ u, c ≠ ')' ∧ c ≠ '\n') :
    parenScan (u ++ ')' :: post) = some (u, post) := by
  induction u with
  | nil => simp [parenScan]
  | cons c cs ih =>
    have hc := hu c (by simp)
    have hrec := ih (fun d hd => hu d (List.mem_cons_of_mem _ hd))
    simp [parenScan, hc.1, hc.2, hrec]

theorem linkTail_cons (c : Char) (rest : Str) (hnl : c ≠ '\n') (hbr : c ≠ ']') :
    linkTail (c :: rest) = (linkTail rest).map (fun t => (c :: t.1, t.2.1, t.2.2)) := by
  cases rest with
  | nil => simp [linkTail, hnl]
  | cons d ds =>
    by_cases hd : d = '('
    · subst hd
      simp [linkTail, hnl, hbr]
    · simp [linkTail, hnl, hd]

theorem linkTail_group (a u post : Str)
    (ha : ∀ c ∈ a, c ≠ ']' ∧ c ≠ '\n')
    (hu : ∀ c ∈ u, c ≠ ')' ∧ c ≠ '\n') :
    linkTail (a ++ ']' :: '(' :: (u ++ ')' :: post)) = some (a, u, post) := by
  induction a with
  | nil =>
    have hps := parenScan_group u post hu
    simp [linkTail, hps]
  | cons c cs ih =>
    have hc := ha c (by simp)
    have hrec := ih (fun d hd => ha d (List.mem_cons_of_mem _ hd))
    rw [List.cons_append, linkTail_cons c _ hc.2 hc.1, hrec]
    rfl

theorem matchLinkAt_group (a u post : Str)
    (ha : ∀ c ∈ a, c ≠ ']' ∧ c ≠ '\n')
    (hu : ∀ c ∈ u, c ≠ ')' ∧ c ≠ '\n') :
    matchLinkAt ('[' :: (a ++ ']' :: '(' :: (u ++ ')' :: post)))
      = some ('[' :: (a ++ ']' :: '(' :: (u ++ [')'])), a, u) := by
  have hdef : matchLinkAt ('[' :: (a ++ ']' :: '(' :: (u ++ ')' :: post)))
      = (linkTail (a ++ ']' :: '(' :: (u ++ ')' :: post))).map
        (fun t => ('[' :: t.1 ++ ']' :: '(' :: t.2.1 ++ [')'], t.1, t.2.1)) := rfl
  rw [hdef, linkTail_group a u post ha hu]
  simp

theorem matchImageAt_group (a u post : Str)
    (ha : ∀ c ∈ a, c ≠ ']' ∧ c ≠ '\n')
    (hu : ∀ c ∈ u, c ≠ ')' ∧ c ≠ '\n') :
    matchImageAt ('!' :: ('[' :: (a ++ ']' :: '(' :: (u ++ ')' :: post))))
      = some (imageSyntax a u, a, u) := by
  have hdef : matchImageAt ('!' :: ('[' :: (a ++ ']' :: '(' :: (u ++ ')' :: post))))
      = (matchLinkAt ('[' :: (a ++ ']' :: '(' :: (u ++ ')' :: post)))).map
        (fun t => ('!' :: t.1, t.2.1, t.2.2)) := rfl
  rw [hdef, matchLinkAt_group a u post ha hu]
  simp [imageSyntax]

theorem finditerBy_skip (m : Str → Option (Str × Str × Str)) (x : Str)
    (hx : ∀ (c : Char) (r : Str), c ∈ x → m (c :: r) = none) :
    ∀ (y : Str) (fuel pos : Nat), x.length ≤ fuel →
      finditerBy m fuel pos (x ++ y)
        = finditerBy m (fuel - x.length) (pos + x.length) y := by
  induction x with
  | nil => intro y fuel pos h; simp
  | cons c cs ih =>
    intro y fuel pos h
    cases fuel with
    | zero => simp at h
    | succ fl =>
      rw [List.cons_append, finditerBy, hx c _ (by simp)]
      have hrec := ih (fun d r hd => hx d r (List.mem_cons_of_mem _ hd)) y fl (pos + 1)
        (by simp at h ⊢; omega)
      show finditerBy m fl (pos + 1) (cs ++ y)
          = finditerBy m (fl + 1 - (c :: cs).length) (pos + (c :: cs).length) y
      rw [hrec]
      congr 1
      · simp
      · simp
        omega

/-- Claim C8: inline processing of a text containing the image syntax
`![a](u)` in bracket-free, bang-free surroundings replaces it by the
rendered `<img ...>` form (never by a link form): the link match at the
inner `[` is discarded because it is directly preceded by `!`, and the
image match consumes the whole `![a](u)` occurrence. -/
theorem image_precedes_link (pre post a u : Str)
    (hpre : ∀ c ∈ pre, c ≠ '[' ∧ c ≠ '!')
    (hpost : ∀ c ∈ post, c ≠ '[' ∧ c ≠ '!')
    (ha : ∀ c ∈ a, c ≠ ']' ∧ c ≠ '\n')
    (hu : ∀ c ∈ u, c ≠ ')' ∧ c ≠ '\n') :
    ElementParser.processInlineText (pre ++ (imageSyntax a u ++ post))
      = pre ++ (imageHtml a u ++ post) := by
  have hpostBr : ∀ c ∈ post, c ≠ '[' := fun c hc => (hpost c hc).1
  have hpostBang : ∀ c ∈ post, c ≠ '!' := fun c hc => (hpost c hc).2
  have hshapeL : pre ++ (imageSyntax a u ++ post)
      = (pre ++ ['!']) ++ ('[' :: (a ++ ']' :: '(' :: (u ++ ')' :: post))) := by
    simp [imageSyntax]
  have hshapeI : pre ++ (imageSyntax a u ++ post)
      = pre ++ ('!' :: ('[' :: (a ++ ']' :: '(' :: (u ++ ')' :: post)))) := by
    simp [imageSyntax]
  have hwholeL : imageSyntax a u ++ post
      = '!' :: ('[' :: (a ++ ']' :: '(' :: (u ++ ')' :: post))) := by
    simp [imageSyntax]
  have hskipL : ∀ (c : Char) (r : Str), c ∈ pre ++ ['!'] → matchLinkAt (c :: r) = none := by
    intro c r hc
    apply matchLinkAt_cons_none
    rcases List.mem_append.mp hc with hc | hc
    · exact (hpre c hc).1
    · rcases List.mem_singleton.mp hc with rfl
      decide
  have hskipI : ∀ (c : Char) (r : Str), c ∈ pre → matchImageAt (c :: r) = none :=
    fun c r hc => matchImageAt_cons_none c r (hpre c hc).2
  have hdropL : ('[' :: (a ++ ']' :: '(' :: (u ++ ')' :: post))).drop
      ('[' :: (a ++ ']' :: '(' :: (u ++ [')']))).length = post := by
    have hsp : '[' :: (a ++ ']' :: '(' :: (u ++ ')' :: post))
        = ('[' :: (a ++ ']' :: '(' :: (u ++ [')']))) ++ post := by simp
    rw [hsp]
    exact List.drop_left _ _
  have hdropI : ('!' :: ('[' :: (a ++ ']' :: '(' :: (u ++ ')' :: post)))).drop
      (imageSyntax a u).length = post := by
    have hsp : '!' :: ('[' :: (a ++ ']' :: '(' :: (u ++ ')' :: post)))
        = imageSyntax a u ++ post := by simp [imageSyntax]
    rw [hsp]
    exact List.drop_left _ _
  have hlinks : finditerBy matchLinkAt
      ((pre ++ (imageSyntax a u ++ post)).length + 1) 0 (pre ++ (imageSyntax a u ++ post))
      = [⟨pre.length + 1, '[' :: (a ++ ']' :: '(' :: (u ++ [')'])), a, u⟩] := by
    rw [hshapeL]
    rw [finditerBy_skip matchLinkAt (pre ++ ['!']) hskipL _ _ _ (by simp)]
    have hfuelL : ((pre ++ ['!']) ++ ('[' :: (a ++ ']' :: '(' :: (u ++ ')' :: post)))).length
          + 1 - (pre ++ ['!']).length
        = (('[' :: (a ++ ']' :: '(' :: (u ++ ')' :: post))).length) + 1 := by
      simp
    rw [hfuelL, finditerBy, matchLinkAt_group a u post ha hu]
    simp only [hdropL]
    rw [finditerBy_eq_nil matchLinkAt (fun t ht => matchLinkAt_eq_none t ht) _ _ post hpostBr]
    simp
  have himgs : finditerBy matchImageAt
      ((pre ++ (imageSyntax a u ++ post)).length + 1) 0 (pre ++ (imageSyntax a u ++ post))
      = [⟨pre.length, imageSyntax a u, a, u⟩] := by
    rw [hshapeI]
    rw [finditerBy_skip matchImageAt pre hskipI _ _ _ (by simp; omega)]
    have hfuelI : (pre ++ ('!' :: ('[' :: (a ++ ']' :: '(' :: (u ++ ')' :: post))))).length
          + 1 - pre.length
        = (('!' :: ('[' :: (a ++ ']' :: '(' :: (u ++ ')' :: post)))).length) + 1 := by
      simp
      omega
    rw [hfuelI, finditerBy, matchImageAt_group a u post ha hu]
    simp only [hdropI]
    rw [finditerBy_eq_nil matchImageAt (fun t ht => matchImageAt_eq_none t ht) _ _ post hpostBr]
    simp
  have hgetD : ((pre ++ (imageSyntax a u ++ post))[pre.length]?).getD ' ' = '!' := by
    rw [List.getElem?_append_right (Nat.le_refl _)]
    simp [imageSyntax]
  have hproc : ElementParser.process_inline_elements (pre ++ (imageSyntax a u ++ post))
      = [⟨.image, pre.length, imageSyntax a u, a, u⟩] := by
    unfold ElementParser.process_inline_elements
    rw [hlinks, himgs]
    simp [List.filter, hgetD, ElementParser.sortByKey, ElementParser.insertByKey]
  have hrepl : replaceAll (imageSyntax a u) (imageHtml a u)
      (pre ++ (imageSyntax a u ++ post)).length (pre ++ (imageSyntax a u ++ post))
      = pre ++ (imageHtml a u ++ post) := by
    have hassocT : pre ++ (imageSyntax a u ++ post)
        = pre ++ imageSyntax a u ++ post := (List.append_assoc _ _ _).symm
    have hIS : imageSyntax a u
        = '!' :: ('[' :: (a ++ ']' :: '(' :: (u ++ [')']))) := rfl
    rw [hassocT, hIS]
    have hsub : hasSub ('!' :: ('[' :: (a ++ ']' :: '(' :: (u ++ [')'])))) post = false :=
      hasSub_eq_false '!' ('[' :: (a ++ ']' :: '(' :: (u ++ [')']))) post hpostBang
    have h := replaceAll_boundary '!' ('[' :: (a ++ ']' :: '(' :: (u ++ [')'])))
      (imageHtml a u) pre post
      (pre ++ '!' :: ('[' :: (a ++ ']' :: '(' :: (u ++ [')']))) ++ post).length
      (fun c hc => (hpre c hc).2) hsub (Nat.le_refl _)
    rw [h]
    simp
  unfold ElementParser.processInlineText
  rw [hproc]
  simp only [List.foldl]
  exact hrepl

theorem image_precedes_link_witness :
    ElementParser.processInlineText
        (['x'] ++ (imageSyntax ['a','l','t'] ['u','r','l'] ++ ['y']))
      = ['x'] ++ (imageHtml ['a','l','t'] ['u','r','l'] ++ ['y']) :=
  image_precedes_link ['x'] ['y'] ['a','l','t'] ['u','r','l']
    (by decide) (by decide) (by decide) (by decide)

/-! ### First/last flags of the legacy unordered-list pass (claim C6) -/

theorem mkItem_first_in_list (l : Str) (f : Bool) :
    (MainParser.mkItem l f).first_in_list = f := rfl

theorem mkItem_last_in_list (l : Str) (f : Bool) :
    (MainParser.mkItem l f).last_in_list = false := rfl

theorem ulGo_shape (zs : List (Str × Bool)) :
    ∀ (i : Nat) (start : Option Nat) (acc : List ListItem),
      ∃ extra : List ListItem,
        (MainParser.ulGo i start acc zs).2.1 = acc ++ extra ∧
        (∀ it ∈ extra, it.last_in_list = false) ∧
        (match extra with
         | [] => True
         | hd :: tl => hd.first_in_list = acc.isEmpty ∧
             ∀ it ∈ tl, it.first_in_list = false) := by
  induction zs with
  | nil =>
    intro i start acc
    exact ⟨[], by simp [MainParser.ulGo], by simp, trivial⟩
  | cons z rest ih =>
    intro i start acc
    obtain ⟨line, claimed⟩ := z
    cases claimed with
    | true =>
      obtain ⟨extra, h1, h2, h3⟩ := ih (i + 1) start acc
      exact ⟨extra, by simpa [MainParser.ulGo] using h1, h2, h3⟩
    | false =>
      by_cases hbr : ['=', '>'] <+: pyStrip line
      · obtain ⟨extra, h1, h2, h3⟩ :=
          ih (i + 1) (match start with | none => some i | some s => some s)
            (acc ++ [MainParser.mkItem (pyStrip line) acc.isEmpty])
        refine ⟨MainParser.mkItem (pyStrip line) acc.isEmpty :: extra, ?_, ?_, ?_⟩
        · simpa [MainParser.ulGo, hbr] using h1
        · intro it hit
          rcases List.mem_cons.mp hit with rfl | hit
          · exact mkItem_last_in_list _ _
          · exact h2 it hit
        · refine ⟨mkItem_first_in_list _ _, ?_⟩
          intro it hit
          cases hextra : extra with
          | nil => rw [hextra] at hit; cases hit
          | cons hd tl =>
            rw [hextra] at h3 hit
            have hne : (acc ++ [MainParser.mkItem (pyStrip line) acc.isEmpty]).isEmpty
                = false := by simp
            rcases List.mem_cons.mp hit with rfl | hit
            · rw [h3.1, hne]
            · exact h3.2 it hit
      · obtain ⟨extra, h1, h2, h3⟩ := ih (i + 1) start acc
        refine ⟨extra, ?_, h2, h3⟩
        simpa [MainParser.ulGo, hbr] using h1

theorem setLastTrue_filter_first (l : List ListItem) :
    ((MainParser.setLastTrue l).filter (fun it => it.first_in_list)).length =
      (l.filter (fun it => it.first_in_list)).length := by
  induction l with
  | nil => rfl
  | cons x xs ih =>
    cases xs with
    | nil =>
      cases hx : x.first_in_list <;> simp [MainParser.setLastTrue, List.filter, hx]
    | cons y ys =>
      simp only [MainParser.setLastTrue, List.filter] at ih ⊢
      cases hx : x.first_in_list <;> simp [hx, ih]

theorem setLastTrue_filter_last (l : List ListItem) (hl : ∀ it ∈ l, it.last_in_list = false)
    (hne : l ≠ []) :
    ((MainParser.setLastTrue l).filter (fun it => it.last_in_list)).length = 1 := by
  induction l with
  | nil => exact absurd rfl hne
  | cons x xs ih =>
    cases xs with
    | nil => simp [MainParser.setLastTrue, List.filter]
    | cons y ys =>
      have hx : x.last_in_list = false := hl x (by simp)
      simp only [MainParser.setLastTrue, List.filter, hx]
      exact ih (fun it hit => hl it (List.mem_cons_of_mem _ hit)) (by simp)

/-- Claim C6: in the legacy unordered-list pass (the variant that sets the
flags), every emitted List element has exactly one item with
`first_in_list = true` and exactly one with `last_in_list = true`. -/
theorem unordered_list_first_last_flags (lines : List Str) (claims : List Bool)
    (pos : Nat) (kind : ListKind) (items : List ListItem)
    (hmem : (pos, Element.list kind items) ∈ (MainParser.parse_unordered_lists lines claims).1) :
    (items.filter (fun it => it.first_in_list)).length = 1 ∧
    (items.filter (fun it => it.last_in_list)).length = 1 := by
  unfold MainParser.parse_unordered_lists at hmem
  by_cases hempty : (MainParser.ulGo 0 none [] (lines.zip claims)).2.1.isEmpty = true
  · rw [if_pos hempty] at hmem
    cases hmem
  · rw [if_neg hempty] at hmem
    rcases List.mem_singleton.mp hmem with heq
    have hkind : Element.list kind items =
        Element.list .unordered
          (MainParser.setLastTrue (MainParser.ulGo 0 none [] (lines.zip claims)).2.1) := by
      exact congrArg Prod.snd heq
    have hitems : items =
        MainParser.setLastTrue (MainParser.ulGo 0 none [] (lines.zip claims)).2.1 :=
      (Element.list.injEq _ _ _ _).mp hkind |>.2
    obtain ⟨extra, h1, h2, h3⟩ := ulGo_shape (lines.zip claims) 0 none []
    rw [List.nil_append] at h1
    have hextra_ne : extra ≠ [] := by
      intro hcon
      rw [hcon] at h1
      rw [h1] at hempty
      exact hempty rfl
    constructor
    · rw [hitems, setLastTrue_filter_first, h1]
      cases hx : extra with
      | nil => exact absurd hx hextra_ne
      | cons hd tl =>
        rw [hx] at h3
        have hhd : hd.first_in_list = true := by rw [h3.1]; rfl
        have htl : ∀ it ∈ tl, it.first_in_list = false := h3.2
        simp only [List.filter, hhd]
        have : tl.filter (fun it => it.first_in_list) = [] := by
          apply List.filter_eq_nil_iff.mpr
          intro it hit
          rw [htl it hit]
          exact fun h => nomatch h
        rw [this]
        rfl
    · rw [hitems, h1]
      exact setLastTrue_filter_last extra (fun it hit => h2 it hit) hextra_ne

/-- Witness for `unordered_list_first_last_flags`: the single-item list
`=> hello`, whose sole item gets both flags set. -/
theorem unordered_list_first_last_flags_witness :
    ((([⟨"hello".toList, .unordered, none, true, true, Attrs.empty⟩] : List ListItem).filter
        (fun it => it.first_in_list)).length = 1) ∧
    ((([⟨"hello".toList, .unordered, none, true, true, Attrs.empty⟩] : List ListItem).filter
        (fun it => it.last_in_list)).length = 1) :=
  unordered_list_first_last_flags ["=> hello".toList] [false] 0 .unordered
    [⟨"hello".toList, .unordered, none, true, true, Attrs.empty⟩] (by decide)

/-! ### List continuation and termination (claim C9) -/

theorem pyStripLeft_space (a : Str) : pyStripLeft (' ' :: a) = pyStripLeft a := by
  simp [pyStripLeft, List.dropWhile_cons]
  intro h
  exact absurd h (by decide)

theorem pyStrip_item_line (a : Str) (hL : pyStripLeft a = a) (hR : pyStripRight a = a)
    (ha : a ≠ []) :
    pyStrip ('=' :: '>' :: ' ' :: a) = '=' :: '>' :: ' ' :: a := by
  have h1 : pyStripLeft ('=' :: '>' :: ' ' :: a) = '=' :: '>' :: ' ' :: a :=
    pyStripLeft_cons _ (by decide)
  have h2 : pyStripRight (['=', '>', ' '] ++ a) = ['=', '>', ' '] ++ a :=
    pyStripRight_append ['=', '>', ' '] a ha hR
  rw [pyStrip, h1]
  simpa using h2

theorem pyStrip_after_marker (a : Str) (hL : pyStripLeft a = a) (hR : pyStripRight a = a) :
    pyStrip (' ' :: a) = a := by
  rw [pyStrip, pyStripLeft_space, hL, hR]

theorem mkULItem_plain (a : Str) (hL : pyStripLeft a = a) (hR : pyStripRight a = a)
    (hb : ∀ ch ∈ a, ch ≠ obrace) (hbr : ∀ ch ∈ a, ch ≠ '[') :
    ElementParser.mkULItem ('=' :: '>' :: ' ' :: a) = plainItem a := by
  have hdrop : ('=' :: '>' :: ' ' :: a).drop 2 = ' ' :: a := rfl
  unfold ElementParser.mkULItem
  rw [hdrop, pyStrip_after_marker a hL hR, extract_inline_attributes_of_noBrace a hb]
  simp only [processInlineText_id (pyStrip a) (by rw [pyStrip_of_stripped a hL hR]; exact hbr)]
  rw [pyStrip_of_stripped a hL hR]
  rfl

/-- Claim C9: in the refactored unordered-list pass, a blank line between
`=>` items does not end the current list (the blank line is claimed as a
continuation and both items land in ONE List element), while a non-blank
line that does not start with `=>` ends it (and is left unclaimed), so two
`=>` runs separated by such a line yield TWO distinct List elements. -/
theorem blank_line_continues_list (a b c : Str)
    (haL : pyStripLeft a = a) (haR : pyStripRight a = a) (ha : a ≠ [])
    (hab : ∀ ch ∈ a, ch ≠ obrace) (habr : ∀ ch ∈ a, ch ≠ '[')
    (hbL : pyStripLeft b = b) (hbR : pyStripRight b = b) (hb : b ≠ [])
    (hbb : ∀ ch ∈ b, ch ≠ obrace) (hbbr : ∀ ch ∈ b, ch ≠ '[')
    (hc1 : (pyStrip c).isEmpty = false)
    (hc2 : (("=>".toList).isPrefixOf (pyStrip c)) = false) :
    (ElementParser.parse_unordered_lists
        ["=> ".toList ++ a, [], "=> ".toList ++ b] [false, false, false] =
      ([(0, Element.list .unordered [plainItem a, plainItem b])],
       [true, true, true])) ∧
    (ElementParser.parse_unordered_lists
        ["=> ".toList ++ a, c, "=> ".toList ++ b] [false, false, false] =
      ([(0, Element.list .unordered [plainItem a]),
        (2, Element.list .unordered [plainItem b])],
       [true, false, true])) := by
  have hl1 : "=> ".toList ++ a = '=' :: '>' :: ' ' :: a := rfl
  have hl2 : "=> ".toList ++ b = '=' :: '>' :: ' ' :: b := rfl
  have hs1 : pyStrip ('=' :: '>' :: ' ' :: a) = '=' :: '>' :: ' ' :: a :=
    pyStrip_item_line a haL haR ha
  have hs2 : pyStrip ('=' :: '>' :: ' ' :: b) = '=' :: '>' :: ' ' :: b :=
    pyStrip_item_line b hbL hbR hb
  have hpa : ['=', '>'] <+: ('=' :: '>' :: ' ' :: a) := ⟨' ' :: a, rfl⟩
  have hpb : ['=', '>'] <+: ('=' :: '>' :: ' ' :: b) := ⟨' ' :: b, rfl⟩
  have hpblank : ¬ (['=', '>'] <+: ([] : Str)) := by
    intro h
    have := h.length_le
    simp at this
  have hemp : pyStrip ([] : Str) = [] := rfl
  have hm1 : ElementParser.mkULItem ('=' :: '>' :: ' ' :: a) = plainItem a :=
    mkULItem_plain a haL haR hab habr
  have hm2 : ElementParser.mkULItem ('=' :: '>' :: ' ' :: b) = plainItem b :=
    mkULItem_plain b hbL hbR hbb hbbr
  have hpc : ¬ (['=', '>'] <+: pyStrip c) := by
    intro hcon
    have hbo : (['=', '>'] : Str).isPrefixOf (pyStrip c) = true :=
      List.isPrefixOf_iff_prefix.mpr hcon
    rw [show (['=', '>'] : Str) = "=>".toList from rfl, hc2] at hbo
    cases hbo
  constructor
  · simp only [ElementParser.parse_unordered_lists, hl1, hl2, List.zip_cons_cons,
      List.zip_nil_right, List.zip_nil_left]
    simp [ElementParser.ulGo, hs1, hs2, hemp, hpa, hpb, hpblank, hm1, hm2,
      ElementParser.listFlushGuard]
  · simp only [ElementParser.parse_unordered_lists, hl1, hl2, List.zip_cons_cons,
      List.zip_nil_right, List.zip_nil_left]
    simp [ElementParser.ulGo, hs1, hs2, hpa, hpb, hpc, hc1, hm1, hm2,
      ElementParser.listFlushGuard, ElementParser.listFlushUncond]

/-- Witness for `blank_line_continues_list` at the items `one`, `two` and the
separator line `x`. -/
theorem blank_line_continues_list_witness :
    (ElementParser.parse_unordered_lists
        ["=> ".toList ++ "one".toList, [], "=> ".toList ++ "two".toList]
        [false, false, false] =
      ([(0, Element.list .unordered [plainItem "one".toList, plainItem "two".toList])],
       [true, true, true])) ∧
    (ElementParser.parse_unordered_lists
        ["=> ".toList ++ "one".toList, "x".toList, "=> ".toList ++ "two".toList]
        [false, false, false] =
      ([(0, Element.list .unordered [plainItem "one".toList]),
        (2, Element.list .unordered [plainItem "two".toList])],
       [true, false, true])) :=
  blank_line_continues_list "one".toList "two".toList "x".toList
    (by decide) (by decide) (by decide) (by decide) (by decide)
    (by decide) (by decide) (by decide) (by decide) (by decide)
    (by decide) (by decide)

/-- Claim C4 (counterexample): on the unterminated fence ```py / x the
code-block pass produces NO CodeBlock element and claims NO lines — the
claim's asserted CodeBlock covering the fence through end-of-document does
not exist (the whole input is instead consumed by the paragraph fallback,
which also shows the parse completes without error). -/
theorem unterminated_fence_yields_no_code_block :
    (ElementParser.parse_code_blocks "\x60\x60\x60py\nx".toList [false, false]
        = ([], [false, false])) ∧
    DdownParser.parse_elements_positioned "\x60\x60\x60py\nx".toList =
      [(0, Element.paragraph ("\x60\x60\x60py x".toList))] := by
  constructor
  · decide
  · decide

end Ddown
